import Mathlib

/-!
Verification development for the persistent `Forest` data structure
(`Forest.ts`): an immutable forest of nodes backed by two persistent
ordered maps, `nodes : ID -> T` and `parents : ID -> (ID, ParentData)`,
together with a caller-supplied pure projection
`getChildren : T -> List (ID, ParentData)`.

The backing BTree is modelled by `SMap`, an association list with
pairwise-distinct keys supporting `get`/`set`/`delete`(`erase`)/`size`
with the same observable semantics as the persistent BTree used by the
source (`set` inserts or overwrites, `erase` removes, iteration yields
the entries).  Iteration order of the BTree (key order) is not
preserved by the model; no theorem below depends on iteration order.

Fallible operations (`add`, `replace`, `mergeWith`, `addAll`, `delete`,
`deleteAll`, `assertConsistent`, `get`, `getParent`) return
`Except String` where the source throws, carrying the exact assertion
message of the source.
-/

/-- Lookup in an association list: value of the first pair whose key is `k`. -/
def alookup {ID V : Type} [DecidableEq ID] : List (ID × V) → ID → Option V
  | [], _ => none
  | e :: r, k => if e.1 = k then some e.2 else alookup r k

/-- Removal from an association list: drops every pair whose key is `k`. -/
def aerase {ID V : Type} [DecidableEq ID] : List (ID × V) → ID → List (ID × V)
  | [], _ => []
  | e :: r, k => if e.1 = k then aerase r k else e :: aerase r k

theorem aerase_sublist {ID V : Type} [DecidableEq ID] (l : List (ID × V)) (k : ID) :
    (aerase l k).Sublist l := by
  induction l with
  | nil => simp [aerase]
  | cons e r ih =>
    by_cases h : e.1 = k
    · simp only [aerase, if_pos h]
      exact ih.cons e
    · simp only [aerase, if_neg h]
      exact ih.cons₂ e

theorem key_not_mem_aerase {ID V : Type} [DecidableEq ID] (l : List (ID × V)) (k : ID) :
    k ∉ (aerase l k).map Prod.fst := by
  induction l with
  | nil => simp [aerase]
  | cons e r ih =>
    by_cases h : e.1 = k
    · simpa [aerase, if_pos h] using ih
    · simp only [aerase, if_neg h, List.map_cons, List.mem_cons]
      rintro (rfl | hmem)
      · exact h rfl
      · exact ih hmem

theorem aerase_of_not_mem {ID V : Type} [DecidableEq ID] (l : List (ID × V)) (k : ID)
    (h : k ∉ l.map Prod.fst) : aerase l k = l := by
  induction l with
  | nil => rfl
  | cons e r ih =>
    simp only [List.map_cons, List.mem_cons] at h
    push_neg at h
    have hne : e.1 ≠ k := fun he => h.1 he.symm
    rw [aerase, if_neg hne, ih h.2]

theorem alookup_isSome_iff {ID V : Type} [DecidableEq ID] (l : List (ID × V)) (k : ID) :
    (alookup l k).isSome ↔ k ∈ l.map Prod.fst := by
  induction l with
  | nil => simp [alookup]
  | cons e r ih =>
    by_cases h : e.1 = k
    · simp [alookup, h]
    · simp only [alookup, if_neg h, List.map_cons, List.mem_cons]
      rw [ih]
      constructor
      · exact fun hm => Or.inr hm
      · rintro (rfl | hm)
        · exact absurd rfl h
        · exact hm

theorem alookup_eq_none_iff {ID V : Type} [DecidableEq ID] (l : List (ID × V)) (k : ID) :
    alookup l k = none ↔ k ∉ l.map Prod.fst := by
  rw [← alookup_isSome_iff, Option.not_isSome_iff_eq_none]

theorem alookup_aerase_self {ID V : Type} [DecidableEq ID] (l : List (ID × V)) (k : ID) :
    alookup (aerase l k) k = none :=
  (alookup_eq_none_iff _ _).mpr (key_not_mem_aerase l k)

theorem alookup_aerase {ID V : Type} [DecidableEq ID] (l : List (ID × V)) (k c : ID) :
    alookup (aerase l k) c = if c = k then none else alookup l c := by
  by_cases hck : c = k
  · subst hck
    rw [if_pos rfl, alookup_aerase_self]
  · rw [if_neg hck]
    induction l with
    | nil => rfl
    | cons e r ih =>
      by_cases hek : e.1 = k
      · rw [aerase, if_pos hek, ih]
        have hec : e.1 ≠ c := fun h => hck (h ▸ hek)
        rw [alookup, if_neg hec]
      · rw [aerase, if_neg hek]
        by_cases hec : e.1 = c
        · rw [alookup, if_pos hec, alookup, if_pos hec]
        · rw [alookup, if_neg hec, alookup, if_neg hec, ih]

theorem alookup_eq_some_of_mem {ID V : Type} [DecidableEq ID] {l : List (ID × V)}
    (hnd : (l.map Prod.fst).Nodup) {e : ID × V} (he : e ∈ l) :
    alookup l e.1 = some e.2 := by
  induction l with
  | nil => cases he
  | cons a r ih =>
    simp only [List.map_cons, List.nodup_cons] at hnd
    rcases List.mem_cons.mp he with rfl | hmem
    · simp [alookup]
    · have hne : a.1 ≠ e.1 := by
        intro h
        exact hnd.1 (h ▸ List.mem_map_of_mem Prod.fst hmem)
      simp [alookup, hne, ih hnd.2 hmem]

theorem mem_of_alookup_eq_some {ID V : Type} [DecidableEq ID] {l : List (ID × V)} {k : ID}
    {v : V} (h : alookup l k = some v) : (k, v) ∈ l := by
  induction l with
  | nil => simp [alookup] at h
  | cons e r ih =>
    by_cases he : e.1 = k
    · simp only [alookup, if_pos he, Option.some.injEq] at h
      subst he; subst h
      exact List.mem_cons_self e r
    · simp only [alookup, if_neg he] at h
      exact List.mem_cons_of_mem e (ih h)

/-- Persistent map model: association list with pairwise-distinct keys.
Models the clonable ordered BTree of the source at the level of its
observable operations. -/
structure SMap (ID V : Type) where
  entries : List (ID × V)
  nodupKeys : (entries.map Prod.fst).Nodup

def SMap.empty {ID V : Type} : SMap ID V := ⟨[], List.nodup_nil⟩

def SMap.get {ID V : Type} [DecidableEq ID] (m : SMap ID V) (k : ID) : Option V :=
  alookup m.entries k

/-- Insert-or-overwrite, the semantics of `BTree.set`. -/
def SMap.set {ID V : Type} [DecidableEq ID] (m : SMap ID V) (k : ID) (v : V) : SMap ID V :=
  ⟨(k, v) :: aerase m.entries k, by
    refine List.nodup_cons.mpr ⟨key_not_mem_aerase _ _, ?_⟩
    exact ((aerase_sublist m.entries k).map Prod.fst).nodup m.nodupKeys⟩

/-- Removal, the semantics of `BTree.delete`. -/
def SMap.erase {ID V : Type} [DecidableEq ID] (m : SMap ID V) (k : ID) : SMap ID V :=
  ⟨aerase m.entries k, ((aerase_sublist m.entries k).map Prod.fst).nodup m.nodupKeys⟩

def SMap.size {ID V : Type} (m : SMap ID V) : Nat := m.entries.length

theorem SMap.get_empty {ID V : Type} [DecidableEq ID] (k : ID) :
    (SMap.empty : SMap ID V).get k = none := rfl

theorem SMap.get_set {ID V : Type} [DecidableEq ID] (m : SMap ID V) (k : ID) (v : V) (c : ID) :
    (m.set k v).get c = if c = k then some v else m.get c := by
  by_cases h : c = k
  · simp [SMap.get, SMap.set, alookup, h]
  · simp only [SMap.get, SMap.set, alookup, if_neg h]
    rw [if_neg (fun he => h he.symm), alookup_aerase, if_neg h]

theorem SMap.get_erase {ID V : Type} [DecidableEq ID] (m : SMap ID V) (k : ID) (c : ID) :
    (m.erase k).get c = if c = k then none else m.get c := by
  simp [SMap.get, SMap.erase, alookup_aerase]

theorem SMap.get_isSome_iff {ID V : Type} [DecidableEq ID] (m : SMap ID V) (k : ID) :
    (m.get k).isSome ↔ k ∈ m.entries.map Prod.fst :=
  alookup_isSome_iff m.entries k

theorem SMap.get_eq_some_of_mem {ID V : Type} [DecidableEq ID] (m : SMap ID V) {e : ID × V}
    (he : e ∈ m.entries) : m.get e.1 = some e.2 :=
  alookup_eq_some_of_mem m.nodupKeys he

theorem SMap.mem_of_get_eq_some {ID V : Type} [DecidableEq ID] (m : SMap ID V) {k : ID} {v : V}
    (h : m.get k = some v) : (k, v) ∈ m.entries :=
  mem_of_alookup_eq_some h

theorem length_aerase_of_mem {ID V : Type} [DecidableEq ID] {l : List (ID × V)} {k : ID}
    (hnd : (l.map Prod.fst).Nodup) (hk : k ∈ l.map Prod.fst) :
    (aerase l k).length + 1 = l.length := by
  induction l with
  | nil => cases hk
  | cons e r ih =>
    simp only [List.map_cons, List.nodup_cons] at hnd
    by_cases he : e.1 = k
    · have hkr : k ∉ r.map Prod.fst := he ▸ hnd.1
      rw [aerase, if_pos he, aerase_of_not_mem r k hkr]
      simp
    · simp only [List.map_cons, List.mem_cons] at hk
      rcases hk with rfl | hk
      · exact absurd rfl he
      · rw [aerase, if_neg he]
        simp only [List.length_cons]
        rw [← ih hnd.2 hk]

theorem SMap.size_set {ID V : Type} [DecidableEq ID] (m : SMap ID V) (k : ID) (v : V) :
    (m.set k v).size = if (m.get k).isSome then m.size else m.size + 1 := by
  by_cases h : (m.get k).isSome
  · have hk : k ∈ m.entries.map Prod.fst := (SMap.get_isSome_iff m k).mp h
    simp only [SMap.set, SMap.size, List.length_cons, if_pos h]
    exact length_aerase_of_mem m.nodupKeys hk
  · simp only [SMap.set, SMap.size, List.length_cons, if_neg h]
    have hk : k ∉ m.entries.map Prod.fst := fun hm => h ((SMap.get_isSome_iff m k).mpr hm)
    rw [aerase_of_not_mem m.entries k hk]

theorem SMap.size_erase_of_isSome {ID V : Type} [DecidableEq ID] (m : SMap ID V) (k : ID)
    (h : (m.get k).isSome) : (m.erase k).size + 1 = m.size :=
  length_aerase_of_mem m.nodupKeys ((SMap.get_isSome_iff m k).mp h)

theorem SMap.size_erase_le {ID V : Type} [DecidableEq ID] (m : SMap ID V) (k : ID) :
    (m.erase k).size ≤ m.size :=
  (aerase_sublist m.entries k).length_le

/-- Differences from one forest to another (`Delta<ID>` of the source). -/
structure Delta (ID : Type) where
  changed : List ID
  added : List ID
  removed : List ID
deriving DecidableEq

/-- The forest state of the source implementation `ForestI`: the two
backing maps plus the caller-supplied `getChildren` projection (the JS
iterable it returns is modelled as a list). -/
structure Forest (ID T D : Type) where
  nodes : SMap ID T
  parents : SMap ID (ID × D)
  getChildren : T → List (ID × D)

/-- The empty forest produced by `createForest(getChildren)`. -/
def emptyForest {ID T D : Type} (gc : T → List (ID × D)) : Forest ID T D :=
  ⟨SMap.empty, SMap.empty, gc⟩

def Forest.size {ID T D : Type} (f : Forest ID T D) : Nat := f.nodes.size

def Forest.tryGet {ID T D : Type} [DecidableEq ID] (f : Forest ID T D) (id : ID) : Option T :=
  f.nodes.get id

def Forest.tryGetParent {ID T D : Type} [DecidableEq ID] (f : Forest ID T D) (id : ID) :
    Option (ID × D) :=
  f.parents.get id

/-- The source `get`: `tryGet(id) ?? fail('ID not found')`. -/
def Forest.get {ID T D : Type} [DecidableEq ID] (f : Forest ID T D) (id : ID) :
    Except String T :=
  match f.tryGet id with
  | some t => .ok t
  | none => .error "ID not found"

/-- The source `getParent`: `tryGetParent(id) ?? fail('ID not found')`. -/
def Forest.getParent {ID T D : Type} [DecidableEq ID] (f : Forest ID T D) (id : ID) :
    Except String (ID × D) :=
  match f.tryGetParent id with
  | some r => .ok r
  | none => .error "ID not found"

/-- One parent-record insertion pass: for every `(childId, parentData)`
of `cs`, set `childId -> (id, parentData)`, in order.  Mirrors the loop
bodies of `add` and `replace`. -/
def setParents {ID D : Type} [DecidableEq ID] (id : ID) (cs : List (ID × D))
    (P : SMap ID (ID × D)) : SMap ID (ID × D) :=
  cs.foldl (fun P cd => P.set cd.1 (id, cd.2)) P

/-- One parent-record removal pass: delete the record of every child of
`cs`, in order.  Mirrors the first loop of `replace`. -/
def eraseParents {ID D : Type} [DecidableEq ID] (cs : List (ID × D))
    (P : SMap ID (ID × D)) : SMap ID (ID × D) :=
  cs.foldl (fun P cd => P.erase cd.1) P

/-- `ForestI.add`. -/
def Forest.add {ID T D : Type} [DecidableEq ID] (f : Forest ID T D) (id : ID) (node : T) :
    Except String (Forest ID T D) :=
  if (f.nodes.get id).isSome then .error "can not add node with already existing id"
  else .ok ⟨f.nodes.set id node, setParents id (f.getChildren node) f.parents, f.getChildren⟩

/-- `ForestI.replace`.  The source guards with `assert(old, ...)` where
`old : T | undefined`; with the node payload opaque this is presence of
`id` in the nodes map. -/
def Forest.replace {ID T D : Type} [DecidableEq ID] (f : Forest ID T D) (id : ID) (node : T) :
    Except String (Forest ID T D) :=
  match f.nodes.get id with
  | none => .error "can not replace node that does not exist"
  | some old =>
      .ok ⟨f.nodes.set id node,
        setParents id (f.getChildren node) (eraseParents (f.getChildren old) f.parents),
        f.getChildren⟩

/-- `ForestI.mergeWith`: a left-to-right fold over the input entries.
The merger may fail (`fail` in the source), hence returns `Except`. -/
def Forest.mergeWith {ID T D : Type} [DecidableEq ID] (f : Forest ID T D)
    (nodes : List (ID × T)) (merger : T → T → ID → Except String T) :
    Except String (Forest ID T D) :=
  nodes.foldlM (fun acc e =>
    match acc.nodes.get e.1 with
    | some cur => do
        let v ← merger cur e.2 e.1
        acc.replace e.1 v
    | none => acc.add e.1 e.2) f

/-- `ForestI.addAll`: `mergeWith` with an always-failing merger. -/
def Forest.addAll {ID T D : Type} [DecidableEq ID] (f : Forest ID T D)
    (nodes : List (ID × T)) : Except String (Forest ID T D) :=
  f.mergeWith nodes (fun _ _ _ => .error "can not add node with already existing id")

/-- The child loop of `deleteRecursive`: delete each child record and,
when `dc` is set, recursively delete the child via `recDel`, the
recursive call at the remaining fuel. -/
def goChildren {ID T D : Type} [DecidableEq ID]
    (recDel : SMap ID T → SMap ID (ID × D) → ID →
      Option (Except String (SMap ID T × SMap ID (ID × D)))) :
    List (ID × D) → SMap ID T → SMap ID (ID × D) → Bool →
    Option (Except String (SMap ID T × SMap ID (ID × D)))
  | [], N, P, _ => some (.ok (N, P))
  | cd :: rest, N, P, dc =>
    let P1 := P.erase cd.1
    if dc then
      match recDel N P1 cd.1 with
      | none => none
      | some (.error e) => some (.error e)
      | some (.ok st) => goChildren recDel rest st.1 st.2 dc
    else goChildren recDel rest N P1 dc

/-- `ForestI.deleteRecursive`, acting on the (cloned) mutable maps.
The unbounded JS recursion is modelled with a fuel parameter; `none`
means the fuel ran out (`delete_fuel_enough` shows fuel `size + 1`
always suffices, so the public `deleteAll` never hits it). -/
def deleteRecursiveF {ID T D : Type} [DecidableEq ID] (gc : T → List (ID × D)) :
    Nat → SMap ID T → SMap ID (ID × D) → ID → Bool →
    Option (Except String (SMap ID T × SMap ID (ID × D)))
  | 0, _, _, _, _ => none
  | fuel + 1, N, P, id, dc =>
    if (P.get id).isSome then some (.error "node must be un-parented to be deleted")
    else
      match N.get id with
      | none => some (.error "node to delete must exist")
      | some node =>
        goChildren (fun N1 P1 i => deleteRecursiveF gc fuel N1 P1 i dc)
          (gc node) (N.erase id) P dc

/-- The child loop with the recursive call instantiated at `fuel`. -/
def deleteChildrenF {ID T D : Type} [DecidableEq ID] (gc : T → List (ID × D))
    (fuel : Nat) (cs : List (ID × D)) (N : SMap ID T) (P : SMap ID (ID × D))
    (dc : Bool) : Option (Except String (SMap ID T × SMap ID (ID × D))) :=
  goChildren (fun N1 P1 i => deleteRecursiveF gc fuel N1 P1 i dc) cs N P dc

/-- One `deleteAll` loop iteration: `deleteRecursive` on the shared
mutable pair for one id.  Fuel `size + 1` of the current nodes map is
always enough (`delete_fuel_enough`), so the `none` arm is dead code. -/
def delStep {ID T D : Type} [DecidableEq ID] (gc : T → List (ID × D)) (dc : Bool)
    (st : SMap ID T × SMap ID (ID × D)) (i : ID) :
    Except String (SMap ID T × SMap ID (ID × D)) :=
  match deleteRecursiveF gc (st.1.size + 1) st.1 st.2 i dc with
  | none => .error "recursion fuel exhausted"
  | some r => r

/-- `ForestI.deleteAll`: clone once, process each id against the shared
pair of maps. -/
def Forest.deleteAll {ID T D : Type} [DecidableEq ID] (f : Forest ID T D) (ids : List ID)
    (dc : Bool) : Except String (Forest ID T D) :=
  match ids.foldlM (delStep f.getChildren dc) (f.nodes, f.parents) with
  | .error e => .error e
  | .ok st => .ok ⟨st.1, st.2, f.getChildren⟩

/-- `ForestI.delete`. -/
def Forest.delete {ID T D : Type} [DecidableEq ID] (f : Forest ID T D) (id : ID) (dc : Bool) :
    Except String (Forest ID T D) :=
  f.deleteAll [id] dc

/-- The inner loop of `assertConsistent`: walk the children of the node
keyed `k`, checking that no child was already claimed and that each
child's cached parent record points back at `k`.  The JS `Set` of
checked children is modelled as a list (`c ∈ checked` as membership). -/
def checkChildren {ID D : Type} [DecidableEq ID] (P : SMap ID (ID × D)) (k : ID) :
    List (ID × D) → List ID → Except String (List ID)
  | [], checked => .ok checked
  | cd :: rest, checked =>
    if cd.1 ∈ checked then
      .error "the item tree tree must not contain cycles or multi-parented nodes"
    else
      match P.get cd.1 with
      | none => .error "each node must have associated metadata"
      | some r =>
        if r.1 = k then checkChildren P k rest (cd.1 :: checked)
        else .error "cached parent is incorrect"

/-- `ForestI.assertConsistent`.  The final count check
`checkedChildren.size + numberOfRoots === this.nodes.size` is carried
out in `Int` arithmetic, as `nodes.size - parents.size` may be negative
in JS. -/
def Forest.assertConsistent {ID T D : Type} [DecidableEq ID] (f : Forest ID T D) :
    Except String Unit :=
  match f.nodes.entries.foldlM
      (fun acc e => checkChildren f.parents e.1 (f.getChildren e.2) acc) ([] : List ID) with
  | .error e => .error e
  | .ok checked =>
    if (checked.length : Int) + ((f.nodes.size : Int) - (f.parents.size : Int))
        = (f.nodes.size : Int) then .ok ()
    else .error "assertion failed"

/-- `ForestI.equals`.  The two reference-identity short-circuits of the
source (`this === forest`, `forest.nodes === this.nodes`) are modelled
by value equality of the entry lists, their observable approximation in
a pure model. -/
def Forest.equals {ID T D : Type} [DecidableEq ID] [DecidableEq T]
    (f other : Forest ID T D) (cmp : T → T → Bool) : Bool :=
  if other.size ≠ f.size then false
  else if other.nodes.entries = f.nodes.entries then true
  else other.nodes.entries.all (fun e =>
    match f.tryGet e.1 with
    | none => false
    | some w => cmp e.2 w)

/-- `ForestI.delta`.  In the `changed` loop the source reads
`this.get(id)` while iterating its own entries; with distinct keys this
is exactly the entry's value `e.2` (`SMap.get_eq_some_of_mem`). -/
def Forest.delta {ID T D : Type} [DecidableEq ID] (f other : Forest ID T D)
    (cmp : T → T → Bool) : Delta ID :=
  { changed := (f.nodes.entries.filter (fun e =>
      match other.tryGet e.1 with
      | some w => ! cmp w e.2
      | none => false)).map Prod.fst
    removed := (f.nodes.entries.filter (fun e => (other.tryGet e.1).isNone)).map Prod.fst
    added := (other.nodes.entries.filter (fun e => (f.tryGet e.1).isNone)).map Prod.fst }

/-- The parent data of the last pair of `cs` yielded for child `c`, if
any: sequential `set` calls make the last yield win. -/
def lastAssigned {ID D : Type} [DecidableEq ID] : List (ID × D) → ID → Option D
  | [], _ => none
  | cd :: rest, c =>
    match lastAssigned rest c with
    | some d => some d
    | none => if cd.1 = c then some cd.2 else none

theorem lastAssigned_eq_none_iff {ID D : Type} [DecidableEq ID] (cs : List (ID × D)) (c : ID) :
    lastAssigned cs c = none ↔ c ∉ cs.map Prod.fst := by
  induction cs with
  | nil => simp [lastAssigned]
  | cons cd rest ih =>
    simp only [lastAssigned, List.map_cons, List.mem_cons]
    cases h : lastAssigned rest c with
    | some d =>
      have hc : c ∈ rest.map Prod.fst := by
        by_contra hc
        rw [ih.mpr hc] at h
        cases h
      constructor
      · intro hfalse; cases hfalse
      · intro hnot; exact absurd (Or.inr hc) hnot
    | none =>
      have hc : c ∉ rest.map Prod.fst := ih.mp h
      by_cases hcd : cd.1 = c
      · subst hcd
        simp [hc]
      · simp only [if_neg hcd]
        constructor
        · rintro - (rfl | hm)
          · exact hcd rfl
          · exact hc hm
        · intro
          trivial

theorem mem_of_lastAssigned_eq_some {ID D : Type} [DecidableEq ID] {cs : List (ID × D)}
    {c : ID} {d : D} (h : lastAssigned cs c = some d) : (c, d) ∈ cs := by
  induction cs with
  | nil => simp [lastAssigned] at h
  | cons cd rest ih =>
    rw [lastAssigned] at h
    cases hr : lastAssigned rest c with
    | some d0 =>
      rw [hr] at h
      cases h
      exact List.mem_cons_of_mem cd (ih hr)
    | none =>
      rw [hr] at h
      by_cases hcd : cd.1 = c
      · rw [if_pos hcd] at h
        cases h
        subst hcd
        exact List.mem_cons_self cd rest
      · rw [if_neg hcd] at h
        cases h

theorem lastAssigned_eq_some_of_nodup {ID D : Type} [DecidableEq ID] {cs : List (ID × D)}
    (hnd : (cs.map Prod.fst).Nodup) {c : ID} {d : D} (hm : (c, d) ∈ cs) :
    lastAssigned cs c = some d := by
  induction cs with
  | nil => cases hm
  | cons cd rest ih =>
    simp only [List.map_cons, List.nodup_cons] at hnd
    rcases List.mem_cons.mp hm with rfl | hmem
    · have : c ∉ rest.map Prod.fst := hnd.1
      rw [lastAssigned, (lastAssigned_eq_none_iff rest c).mpr this, if_pos rfl]
    · rw [lastAssigned, ih hnd.2 hmem]

theorem setParents_get {ID D : Type} [DecidableEq ID] (id : ID) (cs : List (ID × D))
    (P : SMap ID (ID × D)) (c : ID) :
    (setParents id cs P).get c =
      match lastAssigned cs c with
      | some d => some (id, d)
      | none => P.get c := by
  induction cs generalizing P with
  | nil => rfl
  | cons cd rest ih =>
    show (setParents id rest (P.set cd.1 (id, cd.2))).get c = _
    rw [ih]
    cases h : lastAssigned rest c with
    | some d => simp [lastAssigned, h]
    | none =>
      simp only [lastAssigned, h, SMap.get_set]
      by_cases hcd : cd.1 = c
      · rw [if_pos hcd, if_pos hcd.symm]
      · rw [if_neg hcd, if_neg (fun hh => hcd hh.symm)]

theorem eraseParents_get {ID D : Type} [DecidableEq ID] (cs : List (ID × D))
    (P : SMap ID (ID × D)) (c : ID) :
    (eraseParents cs P).get c = if c ∈ cs.map Prod.fst then none else P.get c := by
  induction cs generalizing P with
  | nil => rfl
  | cons cd rest ih =>
    show (eraseParents rest (P.erase cd.1)).get c = _
    rw [ih]
    simp only [List.map_cons, List.mem_cons, SMap.get_erase]
    by_cases h1 : c ∈ rest.map Prod.fst
    · rw [if_pos h1, if_pos (Or.inr h1)]
    · rw [if_neg h1]
      by_cases h2 : c = cd.1
      · rw [if_pos h2, if_pos (Or.inl h2)]
      · rw [if_neg h2, if_neg (by rintro (h | h); exact h2 h; exact h1 h)]

/-- `Claims gc N c r`: the node stored at `r.1` in `N` yields `(c, r.2)`
among its children; the authoritative parent relation recomputed from
node payloads. -/
def Claims {ID T D : Type} [DecidableEq ID] (gc : T → List (ID × D)) (N : SMap ID T)
    (c : ID) (r : ID × D) : Prop :=
  ∃ t, N.get r.1 = some t ∧ (c, r.2) ∈ gc t

/-- The parents map caches exactly the authoritative child-to-parent
relation of the nodes map. -/
def InvP {ID T D : Type} [DecidableEq ID] (gc : T → List (ID × D)) (N : SMap ID T)
    (P : SMap ID (ID × D)) : Prop :=
  ∀ c r, P.get c = some r ↔ Claims gc N c r

/-- A nodes map is well-behaved for `gc` when no child ID is yielded
twice: not within one node's children and not by two distinct nodes. -/
def WBn {ID T D : Type} [DecidableEq ID] (gc : T → List (ID × D)) (N : SMap ID T) : Prop :=
  (∀ p t, N.get p = some t → ((gc t).map Prod.fst).Nodup) ∧
  (∀ p1 t1 p2 t2 c, N.get p1 = some t1 → N.get p2 = some t2 →
    c ∈ (gc t1).map Prod.fst → c ∈ (gc t2).map Prod.fst → p1 = p2)

def Forest.Inv {ID T D : Type} [DecidableEq ID] (f : Forest ID T D) : Prop :=
  InvP f.getChildren f.nodes f.parents

def Forest.WB {ID T D : Type} [DecidableEq ID] (f : Forest ID T D) : Prop :=
  WBn f.getChildren f.nodes

/-- The hypothesis of the claim on `assertConsistent` exactly as stated:
no ID is yielded as a child by two different nodes present in the
forest (it says nothing about one node yielding a child twice). -/
def Forest.NoCross {ID T D : Type} [DecidableEq ID] (f : Forest ID T D) : Prop :=
  f.nodes.entries.Pairwise (fun e1 e2 =>
    ∀ c ∈ (f.getChildren e1.2).map Prod.fst, c ∉ (f.getChildren e2.2).map Prod.fst)

/-- Lookup-level submap. -/
def Subm {ID V : Type} [DecidableEq ID] (N M : SMap ID V) : Prop :=
  ∀ k v, N.get k = some v → M.get k = some v

/-- Every claim of a node present in `N` is cached in `P`. -/
def CompleteP {ID T D : Type} [DecidableEq ID] (gc : T → List (ID × D)) (N : SMap ID T)
    (P : SMap ID (ID × D)) : Prop :=
  ∀ p t c d, N.get p = some t → (c, d) ∈ gc t → P.get c = some (p, d)

/-- Every record of `P` is an authoritative claim of `N` or one of the
listed pending dead records. -/
def SoundM {ID T D : Type} [DecidableEq ID] (gc : T → List (ID × D)) (N : SMap ID T)
    (P : SMap ID (ID × D)) (pend : List (ID × (ID × D))) : Prop :=
  ∀ c r, P.get c = some r → Claims gc N c r ∨ (c, r) ∈ pend

/-- Pending dead records: their parent has been deleted from `N` but
was present in the reference map `N0` and claimed the child there. -/
def PendOK {ID T D : Type} [DecidableEq ID] (gc : T → List (ID × D)) (N0 N : SMap ID T)
    (pend : List (ID × (ID × D))) : Prop :=
  ∀ cr ∈ pend, N.get cr.2.1 = none ∧ ∃ t0, N0.get cr.2.1 = some t0 ∧ (cr.1, cr.2.2) ∈ gc t0

/-- The state invariant threaded through `deleteRecursive`:
`N0` is the nodes map at `deleteAll` entry. -/
def DelInv {ID T D : Type} [DecidableEq ID] (gc : T → List (ID × D)) (N0 N : SMap ID T)
    (P : SMap ID (ID × D)) (pend : List (ID × (ID × D))) : Prop :=
  Subm N N0 ∧ CompleteP gc N P ∧ SoundM gc N P pend ∧ PendOK gc N0 N pend

/-- The dead records created by deleting the node `pid` whose remaining
unprocessed children are `cs`. -/
def recsOf {ID D : Type} (pid : ID) (cs : List (ID × D)) : List (ID × (ID × D)) :=
  cs.map (fun cd => (cd.1, (pid, cd.2)))

/-- Forests reachable from the empty forest through the mutating API,
with the resulting forest well-behaved at every step (deletion cannot
break well-behavedness, so `deleteAllStep` needs no side condition; an
`addAll`/`mergeWith` call decomposes into such steps, see
`mergeWith_reach`). -/
inductive ReachWB {ID T D : Type} [DecidableEq ID] : Forest ID T D → Prop
  | empty (gc : T → List (ID × D)) : ReachWB (emptyForest gc)
  | addStep {f g : Forest ID T D} {id : ID} {n : T} :
      ReachWB f → f.add id n = .ok g → g.WB → ReachWB g
  | replaceStep {f g : Forest ID T D} {id : ID} {n : T} :
      ReachWB f → f.replace id n = .ok g → g.WB → ReachWB g
  | deleteAllStep {f g : Forest ID T D} {ids : List ID} {dc : Bool} :
      ReachWB f → f.deleteAll ids dc = .ok g → ReachWB g

/-- Well-behavedness of every intermediate forest of a `mergeWith` fold:
the proviso under which a `mergeWith` call stays inside `ReachWB`. -/
def MergeWB {ID T D : Type} [DecidableEq ID] (f : Forest ID T D) :
    List (ID × T) → (T → T → ID → Except String T) → Prop
  | [], _ => True
  | e :: rest, m =>
    match f.nodes.get e.1 with
    | some old => ∀ v g, m old e.2 e.1 = .ok v → f.replace e.1 v = .ok g →
        g.WB ∧ MergeWB g rest m
    | none => ∀ g, f.add e.1 e.2 = .ok g → g.WB ∧ MergeWB g rest m

/-- All child IDs claimed by nodes present in the forest, with
multiplicity, in entry order. -/
def claimedChildren {ID T D : Type} (f : Forest ID T D) : List ID :=
  f.nodes.entries.flatMap (fun e => (f.getChildren e.2).map Prod.fst)

/-- Concrete instantiation used by counterexamples and witnesses: node
payloads are their own child lists. -/
def gcId : List (Nat × Nat) → List (Nat × Nat) := id

/-- The concrete forest type of the counterexamples. -/
abbrev CForest : Type := Forest Nat (List (Nat × Nat)) Nat

/-- The empty concrete forest. -/
def cF0 : CForest := emptyForest gcId

/-- One `add` from empty: a single node `0` yielding child `1` twice,
with two different parent-data values. -/
def cexDup : CForest := ((cF0.add 0 [(1, 0), (1, 1)]).toOption).getD cF0

/-- One `add` from empty: a single node `0` yielding child `1` once;
`1` has a parent record but no node. -/
def cexStale : CForest := ((cF0.add 0 [(1, 0)]).toOption).getD cF0

/-- A forest assembled from raw state (the constructor taking
`ForestState` in the source): empty nodes map, one stale parent record. -/
def cexUnclaimed : CForest := ⟨SMap.empty, SMap.empty.set 1 (0, 0), gcId⟩

/-- A payload-comparison function that always answers false: a legal
(if adversarial) comparator for `delta`. -/
def cmpFalse : List (Nat × Nat) → List (Nat × Nat) → Bool := fun _ _ => false

/-- Structural equality as a comparator, the stand-in for the default
`Object.is` on concrete payloads. -/
def cmpEq : List (Nat × Nat) → List (Nat × Nat) → Bool := fun a b => a == b

/-- One `add` from empty: a single childless node `0`. -/
def cexLeaf : CForest := ((cF0.add 0 []).toOption).getD cF0

/-- `cexLeaf` after replacing node `0` with a payload yielding child `1`
twice with different parent data. -/
def cexRep2 : CForest := ((cexLeaf.replace 0 [(1, 0), (1, 1)]).toOption).getD cF0

/-- A forest with the same nodes map as `cexStale` but an empty parents
map: nodes agree, parents differ. -/
def cexAlt : CForest := ⟨cexStale.nodes, SMap.empty, gcId⟩

/-- A merge function that concatenates the conflicting payloads. -/
def mergerApp : List (Nat × Nat) → List (Nat × Nat) → Nat →
    Except String (List (Nat × Nat)) := fun old new _ => .ok (old ++ new)

theorem deleteRecursiveF_zero {ID T D : Type} [DecidableEq ID] (gc : T → List (ID × D))
    (N : SMap ID T) (P : SMap ID (ID × D)) (id : ID) (dc : Bool) :
    deleteRecursiveF gc 0 N P id dc = none := rfl

theorem deleteRecursiveF_succ {ID T D : Type} [DecidableEq ID] (gc : T → List (ID × D))
    (fuel : Nat) (N : SMap ID T) (P : SMap ID (ID × D)) (id : ID) (dc : Bool) :
    deleteRecursiveF gc (fuel + 1) N P id dc =
      if (P.get id).isSome then some (.error "node must be un-parented to be deleted")
      else
        match N.get id with
        | none => some (.error "node to delete must exist")
        | some node => deleteChildrenF gc fuel (gc node) (N.erase id) P dc := rfl

theorem deleteChildrenF_nil {ID T D : Type} [DecidableEq ID] (gc : T → List (ID × D))
    (fuel : Nat) (N : SMap ID T) (P : SMap ID (ID × D)) (dc : Bool) :
    deleteChildrenF gc fuel [] N P dc = some (.ok (N, P)) := rfl

theorem deleteChildrenF_cons {ID T D : Type} [DecidableEq ID] (gc : T → List (ID × D))
    (fuel : Nat) (cd : ID × D) (rest : List (ID × D)) (N : SMap ID T)
    (P : SMap ID (ID × D)) (dc : Bool) :
    deleteChildrenF gc fuel (cd :: rest) N P dc =
      if dc then
        match deleteRecursiveF gc fuel N (P.erase cd.1) cd.1 dc with
        | none => none
        | some (.error e) => some (.error e)
        | some (.ok st) => deleteChildrenF gc fuel rest st.1 st.2 dc
      else deleteChildrenF gc fuel rest N (P.erase cd.1) dc := rfl

theorem SMap.get_of_get_erase {ID V : Type} [DecidableEq ID] {m : SMap ID V} {k c : ID}
    {v : V} (h : (m.erase k).get c = some v) : m.get c = some v := by
  rw [SMap.get_erase] at h
  by_cases hc : c = k
  · rw [if_pos hc] at h
    cases h
  · rwa [if_neg hc] at h

theorem deleteChildrenF_sub_size_of {ID T D : Type} [DecidableEq ID]
    (gc : T → List (ID × D)) (fuel : Nat)
    (hA : ∀ N P id dc N' P', deleteRecursiveF gc fuel N P id dc = some (.ok (N', P')) →
      Subm N' N ∧ Subm P' P ∧ N'.size ≤ N.size) :
    ∀ cs N P dc N' P', deleteChildrenF gc fuel cs N P dc = some (.ok (N', P')) →
      Subm N' N ∧ Subm P' P ∧ N'.size ≤ N.size := by
  intro cs
  induction cs with
  | nil =>
    intro N P dc N' P' h
    rw [deleteChildrenF_nil] at h
    simp only [Option.some.injEq, Except.ok.injEq, Prod.mk.injEq] at h
    obtain ⟨h1, h2⟩ := h
    subst h1
    subst h2
    exact ⟨fun k v hv => hv, fun k r hr => hr, le_refl _⟩
  | cons cd rest ih =>
    intro N P dc N' P' h
    rw [deleteChildrenF_cons] at h
    cases dc with
    | false =>
      simp only [if_neg Bool.false_ne_true] at h
      obtain ⟨s1, s2, s3⟩ := ih N (P.erase cd.1) false N' P' h
      exact ⟨s1, fun k r hr => SMap.get_of_get_erase (s2 k r hr), s3⟩
    | true =>
      simp only [if_pos rfl] at h
      cases hcall : deleteRecursiveF gc fuel N (P.erase cd.1) cd.1 true with
      | none =>
        rw [hcall] at h
        cases h
      | some res =>
        cases res with
        | error e =>
          rw [hcall] at h
          cases h
        | ok st =>
          rw [hcall] at h
          obtain ⟨a1, a2, a3⟩ := hA N (P.erase cd.1) cd.1 true st.1 st.2 (by rw [hcall])
          obtain ⟨b1, b2, b3⟩ := ih st.1 st.2 true N' P' h
          exact ⟨fun k v hv => a1 k v (b1 k v hv),
            fun k r hr => SMap.get_of_get_erase (a2 k r (b2 k r hr)),
            le_trans b3 a3⟩

theorem delete_sub_size {ID T D : Type} [DecidableEq ID] (gc : T → List (ID × D)) :
    ∀ fuel : Nat,
      (∀ N P id dc N' P', deleteRecursiveF gc fuel N P id dc = some (.ok (N', P')) →
        Subm N' N ∧ Subm P' P ∧ N'.size ≤ N.size) ∧
      (∀ cs N P dc N' P', deleteChildrenF gc fuel cs N P dc = some (.ok (N', P')) →
        Subm N' N ∧ Subm P' P ∧ N'.size ≤ N.size) := by
  intro fuel
  induction fuel with
  | zero =>
    have hA : ∀ N P id dc N' P',
        deleteRecursiveF gc 0 N P id dc = some (.ok (N', P')) →
        Subm N' N ∧ Subm P' P ∧ N'.size ≤ N.size := by
      intro N P id dc N' P' h
      rw [deleteRecursiveF_zero] at h
      cases h
    exact ⟨hA, deleteChildrenF_sub_size_of gc 0 hA⟩
  | succ n ih =>
    have hA : ∀ N P id dc N' P',
        deleteRecursiveF gc (n + 1) N P id dc = some (.ok (N', P')) →
        Subm N' N ∧ Subm P' P ∧ N'.size ≤ N.size := by
      intro N P id dc N' P' h
      rw [deleteRecursiveF_succ] at h
      by_cases hp : (P.get id).isSome
      · rw [if_pos hp] at h
        cases h
      · rw [if_neg hp] at h
        cases hn : N.get id with
        | none =>
          rw [hn] at h
          cases h
        | some node =>
          rw [hn] at h
          obtain ⟨b1, b2, b3⟩ := ih.2 (gc node) (N.erase id) P dc N' P' h
          refine ⟨fun k v hv => SMap.get_of_get_erase (b1 k v hv), b2, ?_⟩
          exact le_trans b3 (SMap.size_erase_le N id)
    exact ⟨hA, deleteChildrenF_sub_size_of gc (n + 1) hA⟩

theorem deleteChildrenF_fuel_of {ID T D : Type} [DecidableEq ID]
    (gc : T → List (ID × D)) (fuel : Nat)
    (hA : ∀ N P id dc, (N : SMap ID T).size < fuel → deleteRecursiveF gc fuel N P id dc ≠ none) :
    ∀ cs N P dc, (N : SMap ID T).size < fuel → deleteChildrenF gc fuel cs N P dc ≠ none := by
  intro cs
  induction cs with
  | nil =>
    intro N P dc _ h
    rw [deleteChildrenF_nil] at h
    cases h
  | cons cd rest ih =>
    intro N P dc hsize
    rw [deleteChildrenF_cons]
    cases dc with
    | false =>
      simp only [if_neg Bool.false_ne_true]
      exact ih N (P.erase cd.1) false hsize
    | true =>
      simp only [if_pos rfl]
      cases hcall : deleteRecursiveF gc fuel N (P.erase cd.1) cd.1 true with
      | none => exact absurd hcall (hA N (P.erase cd.1) cd.1 true hsize)
      | some res =>
        cases res with
        | error e => simp
        | ok st =>
          have hsub := ((delete_sub_size gc fuel).1 N (P.erase cd.1) cd.1 true st.1 st.2
            (by rw [hcall])).2.2
          exact ih st.1 st.2 true (lt_of_le_of_lt hsub hsize)

theorem delete_fuel_enough {ID T D : Type} [DecidableEq ID] (gc : T → List (ID × D)) :
    ∀ fuel : Nat,
      (∀ N P id dc, (N : SMap ID T).size < fuel → deleteRecursiveF gc fuel N P id dc ≠ none) ∧
      (∀ cs N P dc, (N : SMap ID T).size < fuel → deleteChildrenF gc fuel cs N P dc ≠ none) := by
  intro fuel
  induction fuel with
  | zero =>
    have hA : ∀ N P id dc, (N : SMap ID T).size < 0 →
        deleteRecursiveF gc 0 N P id dc ≠ none := by
      intro N P id dc h
      exact absurd h (Nat.not_lt_zero _)
    exact ⟨hA, deleteChildrenF_fuel_of gc 0 hA⟩
  | succ n ih =>
    have hA : ∀ N P id dc, (N : SMap ID T).size < n + 1 →
        deleteRecursiveF gc (n + 1) N P id dc ≠ none := by
      intro N P id dc hsize
      rw [deleteRecursiveF_succ]
      by_cases hp : (P.get id).isSome
      · simp [if_pos hp]
      · rw [if_neg hp]
        cases hn : N.get id with
        | none => simp
        | some node =>
          have h1 : (N.erase id).size + 1 = N.size :=
            SMap.size_erase_of_isSome N id (by rw [hn]; rfl)
          have h2 : (N.erase id).size < n := by omega
          exact ih.2 (gc node) (N.erase id) P dc h2
    exact ⟨hA, deleteChildrenF_fuel_of gc (n + 1) hA⟩

theorem deleteChildrenF_errors_of {ID T D : Type} [DecidableEq ID]
    (gc : T → List (ID × D)) (fuel : Nat)
    (hA : ∀ N P id dc e, deleteRecursiveF gc fuel N P id dc = some (.error e) →
      e = "node must be un-parented to be deleted" ∨ e = "node to delete must exist") :
    ∀ cs N P dc e, deleteChildrenF gc fuel cs N P dc = some (.error e) →
      e = "node must be un-parented to be deleted" ∨ e = "node to delete must exist" := by
  intro cs
  induction cs with
  | nil =>
    intro N P dc e h
    rw [deleteChildrenF_nil] at h
    simp at h
  | cons cd rest ih =>
    intro N P dc e h
    rw [deleteChildrenF_cons] at h
    cases dc with
    | false =>
      simp only [if_neg Bool.false_ne_true] at h
      exact ih N (P.erase cd.1) false e h
    | true =>
      rw [if_pos rfl] at h
      cases hcall : deleteRecursiveF gc fuel N (P.erase cd.1) cd.1 true with
      | none =>
        rw [hcall] at h
        cases h
      | some res =>
        cases res with
        | error e0 =>
          rw [hcall] at h
          simp only [Option.some.injEq, Except.error.injEq] at h
          subst h
          exact hA N (P.erase cd.1) cd.1 true _ hcall
        | ok st =>
          rw [hcall] at h
          exact ih st.1 st.2 true e h

theorem delete_errors {ID T D : Type} [DecidableEq ID] (gc : T → List (ID × D)) :
    ∀ fuel : Nat,
      (∀ N P id dc e, deleteRecursiveF gc fuel N P id dc = some (.error e) →
        e = "node must be un-parented to be deleted" ∨ e = "node to delete must exist") ∧
      (∀ cs N P dc e, deleteChildrenF gc fuel cs N P dc = some (.error e) →
        e = "node must be un-parented to be deleted" ∨ e = "node to delete must exist") := by
  intro fuel
  induction fuel with
  | zero =>
    have hA : ∀ N P id dc e, deleteRecursiveF gc 0 N P id dc = some (.error e) →
        e = "node must be un-parented to be deleted" ∨ e = "node to delete must exist" := by
      intro N P id dc e h
      rw [deleteRecursiveF_zero] at h
      cases h
    exact ⟨hA, deleteChildrenF_errors_of gc 0 hA⟩
  | succ n ih =>
    have hA : ∀ N P id dc e, deleteRecursiveF gc (n + 1) N P id dc = some (.error e) →
        e = "node must be un-parented to be deleted" ∨ e = "node to delete must exist" := by
      intro N P id dc e h
      rw [deleteRecursiveF_succ] at h
      by_cases hp : (P.get id).isSome
      · rw [if_pos hp] at h
        simp only [Option.some.injEq, Except.error.injEq] at h
        exact Or.inl h.symm
      · rw [if_neg hp] at h
        cases hn : N.get id with
        | none =>
          rw [hn] at h
          simp only [Option.some.injEq, Except.error.injEq] at h
          exact Or.inr h.symm
        | some node =>
          rw [hn] at h
          exact ih.2 (gc node) (N.erase id) P dc e h
    exact ⟨hA, deleteChildrenF_errors_of gc (n + 1) hA⟩

theorem SMap.get_erase_self {ID V : Type} [DecidableEq ID] (m : SMap ID V) (k : ID) :
    (m.erase k).get k = none := by
  rw [SMap.get_erase, if_pos rfl]

theorem SMap.get_erase_ne {ID V : Type} [DecidableEq ID] (m : SMap ID V) {k c : ID}
    (h : c ≠ k) : (m.erase k).get c = m.get c := by
  rw [SMap.get_erase, if_neg h]

theorem mem_recsOf {ID D : Type} {pid : ID} {cs : List (ID × D)} {x : ID × (ID × D)} :
    x ∈ recsOf pid cs ↔ ∃ cd ∈ cs, x = (cd.1, (pid, cd.2)) := by
  simp only [recsOf, List.mem_map]
  constructor
  · rintro ⟨cd, hm, rfl⟩
    exact ⟨cd, hm, rfl⟩
  · rintro ⟨cd, hm, rfl⟩
    exact ⟨cd, hm, rfl⟩

theorem deleteChildrenF_delinv_of {ID T D : Type} [DecidableEq ID]
    (gc : T → List (ID × D)) (N0 : SMap ID T) (hWB : WBn gc N0) (fuel : Nat)
    (hA : ∀ N P id dc N' P' pend, DelInv gc N0 N P pend →
      deleteRecursiveF gc fuel N P id dc = some (.ok (N', P')) → DelInv gc N0 N' P' pend) :
    ∀ cs pid N P dc N' P' pend, DelInv gc N0 N P (pend ++ recsOf pid cs) →
      deleteChildrenF gc fuel cs N P dc = some (.ok (N', P')) →
      DelInv gc N0 N' P' pend := by
  intro cs
  induction cs with
  | nil =>
    intro pid N P dc N' P' pend hInv h
    rw [deleteChildrenF_nil] at h
    simp only [Option.some.injEq, Except.ok.injEq, Prod.mk.injEq] at h
    obtain ⟨h1, h2⟩ := h
    subst h1
    subst h2
    simpa only [recsOf, List.map_nil, List.append_nil] using hInv
  | cons cd rest ih =>
    intro pid N P dc N' P' pend hInv h
    obtain ⟨hsub, hcomp, hsound, hpend⟩ := hInv
    have hhead : (cd.1, (pid, cd.2)) ∈ pend ++ recsOf pid (cd :: rest) := by
      refine List.mem_append_right _ ?_
      exact mem_recsOf.mpr ⟨cd, List.mem_cons_self cd rest, rfl⟩
    obtain ⟨hpidN, t0, ht0, hcd0⟩ := hpend _ hhead
    have hInv1 : DelInv gc N0 N (P.erase cd.1) (pend ++ recsOf pid rest) := by
      refine ⟨hsub, ?_, ?_, ?_⟩
      · intro p t c d hp hc
        have hcne : c ≠ cd.1 := by
          rintro rfl
          have hp0 : N0.get p = some t := hsub p t hp
          have hc1 : cd.1 ∈ (gc t).map Prod.fst := List.mem_map.mpr ⟨(cd.1, d), hc, rfl⟩
          have hc2 : cd.1 ∈ (gc t0).map Prod.fst :=
            List.mem_map.mpr ⟨(cd.1, cd.2), hcd0, rfl⟩
          have hpp : p = pid := hWB.2 p t pid t0 cd.1 hp0 ht0 hc1 hc2
          rw [hpp, hpidN] at hp
          cases hp
        rw [SMap.get_erase_ne P hcne]
        exact hcomp p t c d hp hc
      · intro c r hr
        have hcne : c ≠ cd.1 := by
          rintro rfl
          rw [SMap.get_erase_self] at hr
          cases hr
        rw [SMap.get_erase_ne P hcne] at hr
        rcases hsound c r hr with hclaim | hmem
        · exact Or.inl hclaim
        · rcases List.mem_append.mp hmem with hl | hrm
          · exact Or.inr (List.mem_append_left _ hl)
          · rw [recsOf, List.map_cons] at hrm
            rcases List.mem_cons.mp hrm with heq | htail
            · exact absurd (congrArg Prod.fst heq) hcne
            · exact Or.inr (List.mem_append_right _ htail)
      · intro cr hcr
        rcases List.mem_append.mp hcr with hl | hrm
        · exact hpend cr (List.mem_append_left _ hl)
        · refine hpend cr (List.mem_append_right _ ?_)
          rw [recsOf, List.map_cons]
          exact List.mem_cons_of_mem _ hrm
    rw [deleteChildrenF_cons] at h
    cases dc with
    | false =>
      simp only [if_neg Bool.false_ne_true] at h
      exact ih pid N (P.erase cd.1) false N' P' pend hInv1 h
    | true =>
      rw [if_pos rfl] at h
      cases hcall : deleteRecursiveF gc fuel N (P.erase cd.1) cd.1 true with
      | none =>
        rw [hcall] at h
        cases h
      | some res =>
        cases res with
        | error e =>
          rw [hcall] at h
          cases h
        | ok st =>
          rw [hcall] at h
          have hst := hA N (P.erase cd.1) cd.1 true st.1 st.2
            (pend ++ recsOf pid rest) hInv1 (by rw [hcall])
          exact ih pid st.1 st.2 true N' P' pend hst h

theorem delete_delinv {ID T D : Type} [DecidableEq ID] (gc : T → List (ID × D))
    (N0 : SMap ID T) (hWB : WBn gc N0) :
    ∀ fuel : Nat,
      (∀ N P id dc N' P' pend, DelInv gc N0 N P pend →
        deleteRecursiveF gc fuel N P id dc = some (.ok (N', P')) →
        DelInv gc N0 N' P' pend) ∧
      (∀ cs pid N P dc N' P' pend, DelInv gc N0 N P (pend ++ recsOf pid cs) →
        deleteChildrenF gc fuel cs N P dc = some (.ok (N', P')) →
        DelInv gc N0 N' P' pend) := by
  intro fuel
  induction fuel with
  | zero =>
    have hA : ∀ N P id dc N' P' pend, DelInv gc N0 N P pend →
        deleteRecursiveF gc 0 N P id dc = some (.ok (N', P')) →
        DelInv gc N0 N' P' pend := by
      intro N P id dc N' P' pend _ h
      rw [deleteRecursiveF_zero] at h
      cases h
    exact ⟨hA, deleteChildrenF_delinv_of gc N0 hWB 0 hA⟩
  | succ n ih =>
    have hA : ∀ N P id dc N' P' pend, DelInv gc N0 N P pend →
        deleteRecursiveF gc (n + 1) N P id dc = some (.ok (N', P')) →
        DelInv gc N0 N' P' pend := by
      intro N P id dc N' P' pend hInv h
      obtain ⟨hsub, hcomp, hsound, hpend⟩ := hInv
      rw [deleteRecursiveF_succ] at h
      by_cases hp : (P.get id).isSome
      · rw [if_pos hp] at h
        cases h
      · rw [if_neg hp] at h
        cases hn : N.get id with
        | none =>
          rw [hn] at h
          cases h
        | some node =>
          rw [hn] at h
          have hInv1 : DelInv gc N0 (N.erase id) P (pend ++ recsOf id (gc node)) := by
            refine ⟨?_, ?_, ?_, ?_⟩
            · intro k v hv
              exact hsub k v (SMap.get_of_get_erase hv)
            · intro p t c d hp' hc
              exact hcomp p t c d (SMap.get_of_get_erase hp') hc
            · intro c r hr
              rcases hsound c r hr with ⟨t, ht, hm⟩ | hmem
              · by_cases hrid : r.1 = id
                · have htn : t = node := by
                    rw [hrid, hn] at ht
                    cases ht
                    rfl
                  subst htn
                  refine Or.inr (List.mem_append_right _ ?_)
                  refine mem_recsOf.mpr ⟨(c, r.2), hm, ?_⟩
                  rw [← hrid]
                · exact Or.inl ⟨t, by rw [SMap.get_erase_ne N hrid]; exact ht, hm⟩
              · exact Or.inr (List.mem_append_left _ hmem)
            · intro cr hcr
              rcases List.mem_append.mp hcr with hl | hrm
              · obtain ⟨h1, h2⟩ := hpend cr hl
                refine ⟨?_, h2⟩
                rw [SMap.get_erase]
                rw [h1]
                exact ite_self none
              · obtain ⟨cd, hcd, rfl⟩ := mem_recsOf.mp hrm
                refine ⟨SMap.get_erase_self N id, node, hsub id node hn, hcd⟩
          exact ih.2 (gc node) id (N.erase id) P dc N' P' pend hInv1 h
    exact ⟨hA, deleteChildrenF_delinv_of gc N0 hWB (n + 1) hA⟩

theorem WBn_of_subm {ID T D : Type} [DecidableEq ID] {gc : T → List (ID × D)}
    {N M : SMap ID T} (hWB : WBn gc M) (hsub : Subm N M) : WBn gc N := by
  constructor
  · intro p t h
    exact hWB.1 p t (hsub p t h)
  · intro p1 t1 p2 t2 c h1 h2 hc1 hc2
    exact hWB.2 p1 t1 p2 t2 c (hsub p1 t1 h1) (hsub p2 t2 h2) hc1 hc2

theorem delinv_of_invP {ID T D : Type} [DecidableEq ID] {gc : T → List (ID × D)}
    {N : SMap ID T} {P : SMap ID (ID × D)} (hInv : InvP gc N P) :
    DelInv gc N N P [] := by
  refine ⟨fun k v hv => hv, ?_, ?_, ?_⟩
  · intro p t c d hp hc
    exact (hInv c (p, d)).mpr ⟨t, hp, hc⟩
  · intro c r hr
    exact Or.inl ((hInv c r).mp hr)
  · intro cr hcr
    cases hcr

theorem invP_of_delinv {ID T D : Type} [DecidableEq ID] {gc : T → List (ID × D)}
    {N0 N : SMap ID T} {P : SMap ID (ID × D)} (h : DelInv gc N0 N P []) :
    InvP gc N P := by
  obtain ⟨-, hcomp, hsound, -⟩ := h
  intro c r
  constructor
  · intro hr
    rcases hsound c r hr with hclaim | hmem
    · exact hclaim
    · cases hmem
  · rintro ⟨t, ht, hm⟩
    exact hcomp r.1 t c r.2 ht hm

theorem foldlM_delete_delinv {ID T D : Type} [DecidableEq ID] {gc : T → List (ID × D)}
    {N0 : SMap ID T} (hWB : WBn gc N0) (dc : Bool) :
    ∀ (ids : List ID) (st st' : SMap ID T × SMap ID (ID × D)),
      DelInv gc N0 st.1 st.2 [] →
      ids.foldlM (delStep gc dc) st = Except.ok st' →
      DelInv gc N0 st'.1 st'.2 [] := by
  intro ids
  induction ids with
  | nil =>
    intro st st' hInv h
    rw [List.foldlM_nil] at h
    cases h
    exact hInv
  | cons i rest ih =>
    intro st st' hInv h
    rw [List.foldlM_cons] at h
    cases hcall : deleteRecursiveF gc (st.1.size + 1) st.1 st.2 i dc with
    | none =>
      exact absurd hcall ((delete_fuel_enough gc (st.1.size + 1)).1 st.1 st.2 i dc
        (Nat.lt_succ_self _))
    | some res =>
      cases res with
      | error e =>
        have hstep : delStep gc dc st i = .error e := by
          rw [delStep, hcall]
        rw [hstep] at h
        cases h
      | ok st1 =>
        have hstep : delStep gc dc st i = .ok st1 := by
          rw [delStep, hcall]
        rw [hstep] at h
        have hbind : rest.foldlM (delStep gc dc) st1 = Except.ok st' := h
        have hst1 := (delete_delinv gc N0 hWB (st.1.size + 1)).1 st.1 st.2 i dc
          st1.1 st1.2 [] hInv (by rw [hcall])
        exact ih st1 st' hst1 hbind

theorem foldlM_delete_errors {ID T D : Type} [DecidableEq ID] {gc : T → List (ID × D)}
    (dc : Bool) :
    ∀ (ids : List ID) (st : SMap ID T × SMap ID (ID × D)) (e : String),
      ids.foldlM (delStep gc dc) st = Except.error e →
      e = "node must be un-parented to be deleted" ∨ e = "node to delete must exist" := by
  intro ids
  induction ids with
  | nil =>
    intro st e h
    rw [List.foldlM_nil] at h
    cases h
  | cons i rest ih =>
    intro st e h
    rw [List.foldlM_cons] at h
    cases hcall : deleteRecursiveF gc (st.1.size + 1) st.1 st.2 i dc with
    | none =>
      exact absurd hcall ((delete_fuel_enough gc (st.1.size + 1)).1 st.1 st.2 i dc
        (Nat.lt_succ_self _))
    | some res =>
      cases res with
      | error e0 =>
        have hstep : delStep gc dc st i = .error e0 := by
          rw [delStep, hcall]
        rw [hstep] at h
        have h2 : (Except.error e0 : Except String (SMap ID T × SMap ID (ID × D)))
            = Except.error e := h
        injection h2 with h3
        subst h3
        exact (delete_errors gc (st.1.size + 1)).1 st.1 st.2 i dc _ hcall
      | ok st1 =>
        have hstep : delStep gc dc st i = .ok st1 := by
          rw [delStep, hcall]
        rw [hstep] at h
        have hbind : rest.foldlM (delStep gc dc) st1 = Except.error e := h
        exact ih st1 e hbind

theorem deleteAll_preserves {ID T D : Type} [DecidableEq ID] {f g : Forest ID T D}
    {ids : List ID} {dc : Bool} (hInv : f.Inv) (hWB : f.WB)
    (h : f.deleteAll ids dc = .ok g) :
    g.Inv ∧ g.WB ∧ g.getChildren = f.getChildren := by
  rw [Forest.deleteAll] at h
  cases hfold : ids.foldlM (delStep f.getChildren dc) (f.nodes, f.parents) with
  | error e =>
    rw [hfold] at h
    cases h
  | ok st =>
    rw [hfold] at h
    simp only [Except.ok.injEq] at h
    subst h
    have hst := foldlM_delete_delinv hWB dc ids (f.nodes, f.parents) st
      (delinv_of_invP hInv) hfold
    exact ⟨invP_of_delinv hst, WBn_of_subm hWB hst.1, rfl⟩

theorem eq_snd_of_nodup_fst {ID D : Type} [DecidableEq ID] {l : List (ID × D)}
    (h : (l.map Prod.fst).Nodup) {c : ID} {a b : D} (ha : (c, a) ∈ l)
    (hb : (c, b) ∈ l) : a = b := by
  have h1 : alookup l c = some a := alookup_eq_some_of_mem h ha
  have h2 : alookup l c = some b := alookup_eq_some_of_mem h hb
  rw [h1] at h2
  injection h2

theorem claims_iff_of_mem {ID T D : Type} [DecidableEq ID] {gc : T → List (ID × D)}
    {M : SMap ID T} (hWB : WBn gc M) {id : ID} {n : T} {c : ID} {d : D}
    (hgid : M.get id = some n) (hmem : (c, d) ∈ gc n) (r : ID × D) :
    Claims gc M c r ↔ r = (id, d) := by
  constructor
  · rintro ⟨t, ht, hm⟩
    have hc1 : c ∈ (gc t).map Prod.fst := List.mem_map.mpr ⟨(c, r.2), hm, rfl⟩
    have hc2 : c ∈ (gc n).map Prod.fst := List.mem_map.mpr ⟨(c, d), hmem, rfl⟩
    have hr1 : r.1 = id := hWB.2 r.1 t id n c ht hgid hc1 hc2
    rw [hr1, hgid] at ht
    injection ht with ht
    subst ht
    have hr2 : r.2 = d := eq_snd_of_nodup_fst (hWB.1 id n hgid) hm hmem
    exact Prod.ext hr1 hr2
  · rintro rfl
    exact ⟨n, hgid, hmem⟩

theorem invP_add {ID T D : Type} [DecidableEq ID] {gc : T → List (ID × D)}
    {N : SMap ID T} {P : SMap ID (ID × D)} {id : ID} {n : T} (hInv : InvP gc N P)
    (hid : N.get id = none) (hWBg : WBn gc (N.set id n)) :
    InvP gc (N.set id n) (setParents id (gc n) P) := by
  intro c r
  have hgid : (N.set id n).get id = some n := by rw [SMap.get_set, if_pos rfl]
  cases hla : lastAssigned (gc n) c with
  | some d =>
    have hmem : (c, d) ∈ gc n := mem_of_lastAssigned_eq_some hla
    simp only [setParents_get, hla]
    rw [claims_iff_of_mem hWBg hgid hmem r]
    constructor
    · intro h
      injection h with h
      exact h.symm
    · rintro rfl
      rfl
  | none =>
    have hnotmem : c ∉ (gc n).map Prod.fst := (lastAssigned_eq_none_iff _ _).mp hla
    simp only [setParents_get, hla]
    rw [hInv c r]
    constructor
    · rintro ⟨t, ht, hm⟩
      have hne : r.1 ≠ id := by
        rintro hre
        rw [hre, hid] at ht
        cases ht
      exact ⟨t, by rw [SMap.get_set, if_neg hne]; exact ht, hm⟩
    · rintro ⟨t, ht, hm⟩
      by_cases hne : r.1 = id
      · rw [hne, hgid] at ht
        injection ht with ht
        subst ht
        exact absurd (List.mem_map.mpr ⟨(c, r.2), hm, rfl⟩) hnotmem
      · rw [SMap.get_set, if_neg hne] at ht
        exact ⟨t, ht, hm⟩

theorem invP_replace {ID T D : Type} [DecidableEq ID] {gc : T → List (ID × D)}
    {N : SMap ID T} {P : SMap ID (ID × D)} {id : ID} {old n : T} (hInv : InvP gc N P)
    (hid : N.get id = some old) (hWBf : WBn gc N) (hWBg : WBn gc (N.set id n)) :
    InvP gc (N.set id n) (setParents id (gc n) (eraseParents (gc old) P)) := by
  intro c r
  have hgid : (N.set id n).get id = some n := by rw [SMap.get_set, if_pos rfl]
  cases hla : lastAssigned (gc n) c with
  | some d =>
    have hmem : (c, d) ∈ gc n := mem_of_lastAssigned_eq_some hla
    simp only [setParents_get, hla]
    rw [claims_iff_of_mem hWBg hgid hmem r]
    constructor
    · intro h
      injection h with h
      exact h.symm
    · rintro rfl
      rfl
  | none =>
    have hnotmem : c ∉ (gc n).map Prod.fst := (lastAssigned_eq_none_iff _ _).mp hla
    simp only [setParents_get, hla, eraseParents_get]
    by_cases hold : c ∈ (gc old).map Prod.fst
    · rw [if_pos hold]
      constructor
      · intro h
        cases h
      · rintro ⟨t, ht, hm⟩
        exfalso
        by_cases hne : r.1 = id
        · rw [hne, hgid] at ht
          injection ht with ht
          subst ht
          exact hnotmem (List.mem_map.mpr ⟨(c, r.2), hm, rfl⟩)
        · rw [SMap.get_set, if_neg hne] at ht
          obtain ⟨cd0, hcd0, hfst⟩ := List.mem_map.mp hold
          have hc1 : c ∈ (gc t).map Prod.fst := List.mem_map.mpr ⟨(c, r.2), hm, rfl⟩
          have hc2 : c ∈ (gc old).map Prod.fst := hold
          exact hne (hWBf.2 r.1 t id old c ht hid hc1 hc2)
    · rw [if_neg hold]
      rw [hInv c r]
      constructor
      · rintro ⟨t, ht, hm⟩
        have hne : r.1 ≠ id := by
          rintro hre
          rw [hre, hid] at ht
          injection ht with ht
          subst ht
          exact hold (List.mem_map.mpr ⟨(c, r.2), hm, rfl⟩)
        exact ⟨t, by rw [SMap.get_set, if_neg hne]; exact ht, hm⟩
      · rintro ⟨t, ht, hm⟩
        by_cases hne : r.1 = id
        · rw [hne, hgid] at ht
          injection ht with ht
          subst ht
          exact absurd (List.mem_map.mpr ⟨(c, r.2), hm, rfl⟩) hnotmem
        · rw [SMap.get_set, if_neg hne] at ht
          exact ⟨t, ht, hm⟩

theorem add_ok_elim {ID T D : Type} [DecidableEq ID] {f g : Forest ID T D} {id : ID}
    {n : T} (h : f.add id n = .ok g) :
    f.nodes.get id = none ∧
      g = ⟨f.nodes.set id n, setParents id (f.getChildren n) f.parents, f.getChildren⟩ := by
  rw [Forest.add] at h
  by_cases hp : (f.nodes.get id).isSome
  · rw [if_pos hp] at h
    cases h
  · rw [if_neg hp] at h
    simp only [Except.ok.injEq] at h
    exact ⟨Option.not_isSome_iff_eq_none.mp hp, h.symm⟩

theorem add_error_iff {ID T D : Type} [DecidableEq ID] (f : Forest ID T D) (id : ID)
    (n : T) :
    (f.add id n = .error "can not add node with already existing id") ↔
      (f.nodes.get id).isSome := by
  rw [Forest.add]
  by_cases hp : (f.nodes.get id).isSome
  · rw [if_pos hp]
    simp [hp]
  · rw [if_neg hp]
    simp [hp]

theorem replace_ok_elim {ID T D : Type} [DecidableEq ID] {f g : Forest ID T D} {id : ID}
    {n : T} (h : f.replace id n = .ok g) :
    ∃ old, f.nodes.get id = some old ∧
      g = ⟨f.nodes.set id n,
        setParents id (f.getChildren n) (eraseParents (f.getChildren old) f.parents),
        f.getChildren⟩ := by
  rw [Forest.replace] at h
  cases ho : f.nodes.get id with
  | none =>
    rw [ho] at h
    cases h
  | some old =>
    rw [ho] at h
    simp only [Except.ok.injEq] at h
    exact ⟨old, rfl, h.symm⟩

theorem replace_error_iff {ID T D : Type} [DecidableEq ID] (f : Forest ID T D) (id : ID)
    (n : T) :
    (f.replace id n = .error "can not replace node that does not exist") ↔
      f.nodes.get id = none := by
  rw [Forest.replace]
  cases ho : f.nodes.get id with
  | none => simp
  | some old => simp

theorem reachWB_inv {ID T D : Type} [DecidableEq ID] {f : Forest ID T D}
    (h : ReachWB f) : f.Inv ∧ f.WB := by
  induction h with
  | empty gc =>
    constructor
    · intro c r
      constructor
      · intro hr
        cases hr
      · rintro ⟨t, ht, -⟩
        cases ht
    · constructor
      · intro p t hp
        cases hp
      · intro p1 t1 p2 t2 c h1 h2
        cases h1
  | addStep hre hok hwb ih =>
    obtain ⟨hid, rfl⟩ := add_ok_elim hok
    exact ⟨invP_add ih.1 hid hwb, hwb⟩
  | replaceStep hre hok hwb ih =>
    obtain ⟨old, hid, rfl⟩ := replace_ok_elim hok
    exact ⟨invP_replace ih.1 hid ih.2 hwb, hwb⟩
  | deleteAllStep hre hok ih =>
    obtain ⟨h1, h2, -⟩ := deleteAll_preserves ih.1 ih.2 hok
    exact ⟨h1, h2⟩

theorem checkChildren_ok {ID D : Type} [DecidableEq ID] {P : SMap ID (ID × D)} {k : ID} :
    ∀ (cs : List (ID × D)) (acc : List ID),
      (cs.map Prod.fst).Nodup →
      (∀ c ∈ cs.map Prod.fst, c ∉ acc) →
      (∀ cd ∈ cs, P.get cd.1 = some (k, cd.2)) →
      acc.Nodup →
      ∃ acc', checkChildren P k cs acc = .ok acc' ∧
        (∀ c, c ∈ acc' ↔ c ∈ acc ∨ c ∈ cs.map Prod.fst) ∧ acc'.Nodup := by
  intro cs
  induction cs with
  | nil =>
    intro acc _ _ _ hacc
    exact ⟨acc, rfl, by simp, hacc⟩
  | cons cd rest ih =>
    intro acc hnd hdisj hrec hacc
    have hne : cd.1 ∉ acc := hdisj cd.1 (by simp)
    have hget : P.get cd.1 = some (k, cd.2) := hrec cd (List.mem_cons_self cd rest)
    rw [checkChildren, if_neg hne]
    simp only [hget, if_true]
    simp only [List.map_cons, List.nodup_cons] at hnd
    obtain ⟨acc', hok, hmem, hnd'⟩ := ih (cd.1 :: acc) hnd.2
      (by
        intro c hc
        simp only [List.mem_cons]
        push_neg
        exact ⟨fun he => hnd.1 (he ▸ hc), hdisj c (List.mem_cons_of_mem _ hc)⟩)
      (fun cd0 h0 => hrec cd0 (List.mem_cons_of_mem _ h0))
      (List.nodup_cons.mpr ⟨hne, hacc⟩)
    refine ⟨acc', hok, ?_, hnd'⟩
    intro c
    rw [hmem c]
    simp only [List.mem_cons, List.map_cons]
    tauto

theorem checkChildren_post {ID D : Type} [DecidableEq ID] {P : SMap ID (ID × D)} {k : ID} :
    ∀ (cs : List (ID × D)) (acc acc' : List ID),
      checkChildren P k cs acc = .ok acc' →
      (acc.Nodup → acc'.Nodup) ∧
      (∀ c ∈ acc', c ∈ acc ∨ ((P.get c).isSome ∧ c ∈ cs.map Prod.fst)) ∧
      (∀ c ∈ acc, c ∈ acc') := by
  intro cs
  induction cs with
  | nil =>
    intro acc acc' h
    rw [checkChildren] at h
    injection h with h
    subst h
    exact ⟨fun h => h, fun c hc => Or.inl hc, fun c hc => hc⟩
  | cons cd rest ih =>
    intro acc acc' h
    rw [checkChildren] at h
    by_cases hin : cd.1 ∈ acc
    · rw [if_pos hin] at h
      cases h
    · rw [if_neg hin] at h
      cases hget : P.get cd.1 with
      | none =>
        rw [hget] at h
        cases h
      | some r =>
        rw [hget] at h
        by_cases hr : r.1 = k
        · simp only [if_pos hr] at h
          obtain ⟨h1, h2, h3⟩ := ih (cd.1 :: acc) acc' h
          refine ⟨fun hacc => h1 (List.nodup_cons.mpr ⟨hin, hacc⟩), ?_, ?_⟩
          · intro c hc
            rcases h2 c hc with hc1 | hc2
            · rcases List.mem_cons.mp hc1 with rfl | hc3
              · exact Or.inr ⟨by rw [hget]; rfl, by simp⟩
              · exact Or.inl hc3
            · exact Or.inr ⟨hc2.1, List.mem_cons_of_mem _ hc2.2⟩
          · intro c hc
            exact h3 c (List.mem_cons_of_mem _ hc)
        · simp only [if_neg hr] at h
          cases h

theorem assertLoop_ok {ID T D : Type} [DecidableEq ID] {f : Forest ID T D}
    (hInv : f.Inv) (hWB : f.WB) :
    ∀ (es done : List (ID × T)) (acc : List ID),
      done ++ es = f.nodes.entries →
      (∀ c, c ∈ acc ↔ ∃ e ∈ done, c ∈ (f.getChildren e.2).map Prod.fst) →
      acc.Nodup →
      ∃ acc', es.foldlM (fun a e => checkChildren f.parents e.1 (f.getChildren e.2) a) acc
          = .ok acc' ∧
        (∀ c, c ∈ acc' ↔ ∃ e ∈ f.nodes.entries, c ∈ (f.getChildren e.2).map Prod.fst) ∧
        acc'.Nodup := by
  intro es
  induction es with
  | nil =>
    intro done acc hsplit hmem hnd
    rw [List.foldlM_nil]
    refine ⟨acc, rfl, ?_, hnd⟩
    rw [List.append_nil] at hsplit
    subst hsplit
    exact hmem
  | cons e rest ih =>
    intro done acc hsplit hmem hnd
    have hemem : e ∈ f.nodes.entries := by
      rw [← hsplit]
      exact List.mem_append_right _ (List.mem_cons_self e rest)
    have hget : f.nodes.get e.1 = some e.2 := SMap.get_eq_some_of_mem f.nodes hemem
    have hkeys : ((done ++ e :: rest).map Prod.fst).Nodup := by
      rw [hsplit]
      exact f.nodes.nodupKeys
    rw [List.foldlM_cons]
    obtain ⟨acc1, hok, hmem1, hnd1⟩ := checkChildren_ok (f.getChildren e.2) acc
      (hWB.1 e.1 e.2 hget)
      (by
        intro c hc hcacc
        obtain ⟨e0, he0, hc0⟩ := (hmem c).mp hcacc
        have hget0 : f.nodes.get e0.1 = some e0.2 :=
          SMap.get_eq_some_of_mem f.nodes (by rw [← hsplit]; exact List.mem_append_left _ he0)
        have heq : e0.1 = e.1 := hWB.2 e0.1 e0.2 e.1 e.2 c hget0 hget hc0 hc
        rw [List.map_append] at hkeys
        have hm1 : e0.1 ∈ done.map Prod.fst := List.mem_map.mpr ⟨e0, he0, rfl⟩
        have hm2 : e0.1 ∈ (e :: rest).map Prod.fst := by
          rw [heq, List.map_cons]
          exact List.mem_cons_self _ _
        exact List.disjoint_of_nodup_append hkeys hm1 hm2)
      (fun cd hcd => (hInv cd.1 (e.1, cd.2)).mpr ⟨e.2, hget, by
        have : (cd.1, cd.2) = cd := rfl
        rw [this]
        exact hcd⟩)
      hnd
    rw [hok]
    refine ih (done ++ [e]) acc1 (by rw [List.append_assoc]; exact hsplit) ?_ hnd1
    intro c
    rw [hmem1 c, hmem c]
    constructor
    · rintro (⟨e0, he0, hc0⟩ | hc)
      · exact ⟨e0, List.mem_append_left _ he0, hc0⟩
      · exact ⟨e, List.mem_append_right _ (by simp), hc⟩
    · rintro ⟨e0, he0, hc0⟩
      rcases List.mem_append.mp he0 with h0 | h0
      · exact Or.inl ⟨e0, h0, hc0⟩
      · rw [List.mem_singleton] at h0
        subst h0
        exact Or.inr hc0

theorem assertLoop_post {ID T D : Type} [DecidableEq ID] {f : Forest ID T D} :
    ∀ (es : List (ID × T)) (acc acc' : List ID),
      es.foldlM (fun a e => checkChildren f.parents e.1 (f.getChildren e.2) a) acc
        = .ok acc' →
      (acc.Nodup → acc'.Nodup) ∧
      (∀ c ∈ acc', c ∈ acc ∨ ((f.parents.get c).isSome ∧
        ∃ e ∈ es, c ∈ (f.getChildren e.2).map Prod.fst)) := by
  intro es
  induction es with
  | nil =>
    intro acc acc' h
    rw [List.foldlM_nil] at h
    injection h with h
    subst h
    exact ⟨fun hn => hn, fun c hc => Or.inl hc⟩
  | cons e rest ih =>
    intro acc acc' h
    rw [List.foldlM_cons] at h
    cases hcc : checkChildren f.parents e.1 (f.getChildren e.2) acc with
    | error e0 =>
      rw [hcc] at h
      have h2 : (Except.error e0 : Except String (List ID)) = Except.ok acc' := h
      cases h2
    | ok acc1 =>
      rw [hcc] at h
      have h2 : rest.foldlM
          (fun a e => checkChildren f.parents e.1 (f.getChildren e.2) a) acc1
          = Except.ok acc' := h
      obtain ⟨p1, p2, p3⟩ := checkChildren_post (f.getChildren e.2) acc acc1 hcc
      obtain ⟨q1, q2⟩ := ih acc1 acc' h2
      refine ⟨fun hn => q1 (p1 hn), ?_⟩
      intro c hc
      rcases q2 c hc with hc1 | hc2
      · rcases p2 c hc1 with hc3 | hc4
        · exact Or.inl hc3
        · exact Or.inr ⟨hc4.1, e, List.mem_cons_self e rest, hc4.2⟩
      · obtain ⟨hsome, e0, he0, hch⟩ := hc2
        exact Or.inr ⟨hsome, e0, List.mem_cons_of_mem _ he0, hch⟩

theorem mem_claimedChildren {ID T D : Type} {f : Forest ID T D} {c : ID} :
    c ∈ claimedChildren f ↔
      ∃ e ∈ f.nodes.entries, c ∈ (f.getChildren e.2).map Prod.fst := by
  simp [claimedChildren]

theorem assertConsistent_ok {ID T D : Type} [DecidableEq ID] {f : Forest ID T D}
    (hInv : f.Inv) (hWB : f.WB) : f.assertConsistent = .ok () := by
  obtain ⟨acc', hfold, hmem, hnd⟩ := assertLoop_ok hInv hWB f.nodes.entries [] []
    rfl (by simp) List.nodup_nil
  have hiff : ∀ c, c ∈ acc' ↔ c ∈ f.parents.entries.map Prod.fst := by
    intro c
    rw [hmem c]
    constructor
    · rintro ⟨e, he, hc⟩
      obtain ⟨cd, hcd, hfst⟩ := List.mem_map.mp hc
      have hrec : f.parents.get c = some (e.1, cd.2) :=
        (hInv c (e.1, cd.2)).mpr ⟨e.2, SMap.get_eq_some_of_mem f.nodes he, by
          have : (c, cd.2) = cd := by
            rw [← hfst]
          rw [this]
          exact hcd⟩
      rw [← SMap.get_isSome_iff, hrec]
      rfl
    · intro hc
      have hsome : (f.parents.get c).isSome := (SMap.get_isSome_iff _ _).mpr hc
      obtain ⟨r, hr⟩ := Option.isSome_iff_exists.mp hsome
      obtain ⟨t, ht, hm⟩ := (hInv c r).mp hr
      exact ⟨(r.1, t), SMap.mem_of_get_eq_some f.nodes ht,
        List.mem_map.mpr ⟨(c, r.2), hm, rfl⟩⟩
  have h1 : List.Subperm acc' (f.parents.entries.map Prod.fst) :=
    hnd.subperm (fun c hc => (hiff c).mp hc)
  have h2 : List.Subperm (f.parents.entries.map Prod.fst) acc' :=
    f.parents.nodupKeys.subperm (fun c hc => (hiff c).mpr hc)
  have hlen : acc'.length = f.parents.size := by
    have := le_antisymm h1.length_le h2.length_le
    rw [this, List.length_map]
    rfl
  have hcond : (acc'.length : Int) + ((f.nodes.size : Int) - (f.parents.size : Int))
      = (f.nodes.size : Int) := by
    rw [hlen]
    ring
  rw [Forest.assertConsistent]
  simp only [hfold]
  rw [if_pos hcond]

theorem assertConsistent_stale {ID T D : Type} [DecidableEq ID] {f : Forest ID T D}
    {s : ID} {r : ID × D} (hs : f.parents.get s = some r)
    (hnc : s ∉ claimedChildren f) : ∃ e, f.assertConsistent = .error e := by
  rw [Forest.assertConsistent]
  cases hfold : f.nodes.entries.foldlM
      (fun a e => checkChildren f.parents e.1 (f.getChildren e.2) a) ([] : List ID) with
  | error e0 => exact ⟨e0, by simp only [hfold]⟩
  | ok acc' =>
    obtain ⟨q1, q2⟩ := assertLoop_post f.nodes.entries [] acc' hfold
    have hnd : acc'.Nodup := q1 List.nodup_nil
    have hskeys : s ∈ f.parents.entries.map Prod.fst :=
      (SMap.get_isSome_iff _ _).mp (by rw [hs]; rfl)
    have hsub : ∀ c ∈ acc', c ∈ (f.parents.entries.map Prod.fst).erase s := by
      intro c hc
      rcases q2 c hc with hc1 | hc2
      · cases hc1
      · obtain ⟨hsome, e0, he0, hch⟩ := hc2
        have hck : c ∈ f.parents.entries.map Prod.fst := (SMap.get_isSome_iff _ _).mp hsome
        have hcs : c ≠ s := by
          rintro rfl
          exact hnc (mem_claimedChildren.mpr ⟨e0, he0, hch⟩)
        exact (List.mem_erase_of_ne hcs).mpr hck
    have hle : acc'.length ≤ ((f.parents.entries.map Prod.fst).erase s).length :=
      (hnd.subperm (fun c hc => hsub c hc)).length_le
    have herase : ((f.parents.entries.map Prod.fst).erase s).length
        = (f.parents.entries.map Prod.fst).length - 1 :=
      List.length_erase_of_mem hskeys
    have hpos : 0 < (f.parents.entries.map Prod.fst).length := List.length_pos.mpr
      (List.ne_nil_of_mem hskeys)
    have hsize : (f.parents.entries.map Prod.fst).length = f.parents.size := by
      rw [List.length_map]
      rfl
    have hlt : acc'.length < f.parents.size := by omega
    have hcond : ¬((acc'.length : Int) + ((f.nodes.size : Int) - (f.parents.size : Int))
        = (f.nodes.size : Int)) := by omega
    refine ⟨"assertion failed", ?_⟩
    simp only [hfold]
    rw [if_neg hcond]

theorem mergeWith_nil_eq {ID T D : Type} [DecidableEq ID] (f : Forest ID T D)
    (m : T → T → ID → Except String T) : f.mergeWith [] m = .ok f := rfl

theorem mergeWith_cons_some {ID T D : Type} [DecidableEq ID] {f : Forest ID T D}
    {e : ID × T} {old : T} (rest : List (ID × T)) (m : T → T → ID → Except String T)
    (hget : f.nodes.get e.1 = some old) :
    f.mergeWith (e :: rest) m = (m old e.2 e.1).bind (fun v =>
      (f.replace e.1 v).bind (fun g => g.mergeWith rest m)) := by
  rw [Forest.mergeWith, List.foldlM_cons]
  simp only [hget]
  cases hm : m old e.2 e.1 with
  | error er => rfl
  | ok v => rfl

theorem mergeWith_cons_none {ID T D : Type} [DecidableEq ID] {f : Forest ID T D}
    {e : ID × T} (rest : List (ID × T)) (m : T → T → ID → Except String T)
    (hget : f.nodes.get e.1 = none) :
    f.mergeWith (e :: rest) m = (f.add e.1 e.2).bind (fun g => g.mergeWith rest m) := by
  rw [Forest.mergeWith, List.foldlM_cons]
  simp only [hget]
  rfl

theorem mergeWith_reach {ID T D : Type} [DecidableEq ID] :
    ∀ (l : List (ID × T)) (f g : Forest ID T D) (m : T → T → ID → Except String T),
      ReachWB f → MergeWB f l m → f.mergeWith l m = .ok g → ReachWB g := by
  intro l
  induction l with
  | nil =>
    intro f g m hre _ h
    rw [mergeWith_nil_eq] at h
    injection h with h
    subst h
    exact hre
  | cons e rest ih =>
    intro f g m hre hmwb h
    cases hget : f.nodes.get e.1 with
    | some old =>
      simp only [MergeWB, hget] at hmwb
      rw [mergeWith_cons_some rest m hget] at h
      cases hm : m old e.2 e.1 with
      | error er =>
        rw [hm] at h
        cases h
      | ok v =>
        rw [hm] at h
        have h1 : (f.replace e.1 v).bind (fun g => g.mergeWith rest m) = Except.ok g := h
        cases hrep : f.replace e.1 v with
        | error er =>
          rw [hrep] at h1
          cases h1
        | ok g1 =>
          rw [hrep] at h1
          have h2 : g1.mergeWith rest m = .ok g := h1
          obtain ⟨hwb1, hmwb1⟩ := hmwb v g1 hm hrep
          exact ih g1 g m (ReachWB.replaceStep hre hrep hwb1) hmwb1 h2
    | none =>
      simp only [MergeWB, hget] at hmwb
      rw [mergeWith_cons_none rest m hget] at h
      cases hadd : f.add e.1 e.2 with
      | error er =>
        rw [hadd] at h
        cases h
      | ok g1 =>
        rw [hadd] at h
        have h2 : g1.mergeWith rest m = .ok g := h
        obtain ⟨hwb1, hmwb1⟩ := hmwb g1 hadd
        exact ih g1 g m (ReachWB.addStep hre hadd hwb1) hmwb1 h2

theorem deleteChildrenF_false {ID T D : Type} [DecidableEq ID] (gc : T → List (ID × D))
    (fuel : Nat) :
    ∀ (cs : List (ID × D)) (N : SMap ID T) (P : SMap ID (ID × D)),
      deleteChildrenF gc fuel cs N P false = some (.ok (N, eraseParents cs P)) := by
  intro cs
  induction cs with
  | nil =>
    intro N P
    rw [deleteChildrenF_nil]
    rfl
  | cons cd rest ih =>
    intro N P
    rw [deleteChildrenF_cons]
    simp only [if_neg Bool.false_ne_true]
    exact ih N (P.erase cd.1)

theorem delete_unparented_fail {ID T D : Type} [DecidableEq ID] {f : Forest ID T D}
    {id : ID} (dc : Bool) (hp : (f.parents.get id).isSome) :
    f.delete id dc = .error "node must be un-parented to be deleted" := by
  rw [Forest.delete, Forest.deleteAll]
  have hstep : delStep f.getChildren dc (f.nodes, f.parents) id
      = .error "node must be un-parented to be deleted" := by
    rw [delStep]
    rw [deleteRecursiveF_succ, if_pos hp]
  rw [List.foldlM_cons, hstep]
  rfl

theorem deleteAll_head_unparented_fail {ID T D : Type} [DecidableEq ID]
    {f : Forest ID T D} {id : ID} (rest : List ID) (dc : Bool)
    (hp : (f.parents.get id).isSome) :
    f.deleteAll (id :: rest) dc = .error "node must be un-parented to be deleted" := by
  rw [Forest.deleteAll]
  have hstep : delStep f.getChildren dc (f.nodes, f.parents) id
      = .error "node must be un-parented to be deleted" := by
    rw [delStep]
    rw [deleteRecursiveF_succ, if_pos hp]
  rw [List.foldlM_cons, hstep]
  rfl

theorem delete_missing_fail {ID T D : Type} [DecidableEq ID] {f : Forest ID T D}
    {id : ID} (dc : Bool) (hp : f.parents.get id = none) (hn : f.nodes.get id = none) :
    f.delete id dc = .error "node to delete must exist" := by
  rw [Forest.delete, Forest.deleteAll]
  have hstep : delStep f.getChildren dc (f.nodes, f.parents) id
      = .error "node to delete must exist" := by
    rw [delStep]
    rw [deleteRecursiveF_succ, if_neg (by rw [hp]; exact Bool.false_ne_true)]
    simp only [hn]
  rw [List.foldlM_cons, hstep]
  rfl

theorem delete_false_spec {ID T D : Type} [DecidableEq ID] {f : Forest ID T D} {id : ID}
    {n : T} (hp : f.parents.get id = none) (hn : f.nodes.get id = some n) :
    f.delete id false
      = .ok ⟨f.nodes.erase id, eraseParents (f.getChildren n) f.parents, f.getChildren⟩ := by
  rw [Forest.delete, Forest.deleteAll]
  have hstep : delStep f.getChildren false (f.nodes, f.parents) id
      = .ok (f.nodes.erase id, eraseParents (f.getChildren n) f.parents) := by
    rw [delStep]
    rw [deleteRecursiveF_succ, if_neg (by rw [hp]; exact Bool.false_ne_true)]
    simp only [hn]
    rw [deleteChildrenF_false]
  rw [List.foldlM_cons, hstep]
  rfl

theorem delete_true_spec {ID T D : Type} [DecidableEq ID] {f : Forest ID T D} {id : ID}
    {n : T} (hp : f.parents.get id = none) (hn : f.nodes.get id = some n) :
    f.delete id true
      = match deleteChildrenF f.getChildren f.nodes.size (f.getChildren n)
          (f.nodes.erase id) f.parents true with
        | none => .error "recursion fuel exhausted"
        | some (.error e) => .error e
        | some (.ok st) => .ok ⟨st.1, st.2, f.getChildren⟩ := by
  rw [Forest.delete, Forest.deleteAll]
  have hstep : delStep f.getChildren true (f.nodes, f.parents) id
      = match deleteChildrenF f.getChildren f.nodes.size (f.getChildren n)
          (f.nodes.erase id) f.parents true with
        | none => .error "recursion fuel exhausted"
        | some r => r := by
    rw [delStep]
    rw [deleteRecursiveF_succ, if_neg (by rw [hp]; exact Bool.false_ne_true)]
    simp only [hn]
  rw [List.foldlM_cons, hstep]
  cases hcc : deleteChildrenF f.getChildren f.nodes.size (f.getChildren n)
      (f.nodes.erase id) f.parents true with
  | none => rfl
  | some r =>
    cases r with
    | error e => rfl
    | ok st => rfl

theorem delta_changed_mem {ID T D : Type} [DecidableEq ID] {f g : Forest ID T D}
    {cmp : T → T → Bool} {id : ID} :
    id ∈ (f.delta g cmp).changed ↔
      ∃ v w, f.tryGet id = some v ∧ g.tryGet id = some w ∧ cmp w v = false := by
  rw [Forest.delta]
  simp only [List.mem_map, List.mem_filter]
  constructor
  · rintro ⟨e, ⟨he, hpred⟩, rfl⟩
    have hv : f.tryGet e.1 = some e.2 := SMap.get_eq_some_of_mem f.nodes he
    cases hw : g.tryGet e.1 with
    | none =>
      rw [hw] at hpred
      cases hpred
    | some w =>
      rw [hw] at hpred
      refine ⟨e.2, w, hv, rfl, ?_⟩
      simpa using hpred
  · rintro ⟨v, w, hv, hw, hcmp⟩
    refine ⟨(id, v), ⟨SMap.mem_of_get_eq_some f.nodes hv, ?_⟩, rfl⟩
    simp only [hw, hcmp]
    rfl

theorem delta_removed_mem {ID T D : Type} [DecidableEq ID] {f g : Forest ID T D}
    {cmp : T → T → Bool} {id : ID} :
    id ∈ (f.delta g cmp).removed ↔
      (∃ v, f.tryGet id = some v) ∧ g.tryGet id = none := by
  rw [Forest.delta]
  simp only [List.mem_map, List.mem_filter]
  constructor
  · rintro ⟨e, ⟨he, hpred⟩, rfl⟩
    refine ⟨⟨e.2, SMap.get_eq_some_of_mem f.nodes he⟩, ?_⟩
    rwa [Option.isNone_iff_eq_none] at hpred
  · rintro ⟨⟨v, hv⟩, hw⟩
    refine ⟨(id, v), ⟨SMap.mem_of_get_eq_some f.nodes hv, ?_⟩, rfl⟩
    rw [Option.isNone_iff_eq_none]
    exact hw

theorem delta_added_mem {ID T D : Type} [DecidableEq ID] {f g : Forest ID T D}
    {cmp : T → T → Bool} {id : ID} :
    id ∈ (f.delta g cmp).added ↔
      (∃ w, g.tryGet id = some w) ∧ f.tryGet id = none := by
  rw [Forest.delta]
  simp only [List.mem_map, List.mem_filter]
  constructor
  · rintro ⟨e, ⟨he, hpred⟩, rfl⟩
    refine ⟨⟨e.2, SMap.get_eq_some_of_mem g.nodes he⟩, ?_⟩
    rwa [Option.isNone_iff_eq_none] at hpred
  · rintro ⟨⟨w, hw⟩, hv⟩
    refine ⟨(id, w), ⟨SMap.mem_of_get_eq_some g.nodes hw, ?_⟩, rfl⟩
    rw [Option.isNone_iff_eq_none]
    exact hv

theorem delta_nodup {ID T D : Type} [DecidableEq ID] (f g : Forest ID T D)
    (cmp : T → T → Bool) :
    (f.delta g cmp).changed.Nodup ∧ (f.delta g cmp).removed.Nodup ∧
      (f.delta g cmp).added.Nodup := by
  refine ⟨?_, ?_, ?_⟩
  · exact (((List.filter_sublist _).map Prod.fst).nodup f.nodes.nodupKeys)
  · exact (((List.filter_sublist _).map Prod.fst).nodup f.nodes.nodupKeys)
  · exact (((List.filter_sublist _).map Prod.fst).nodup g.nodes.nodupKeys)

theorem delta_of_perm {ID T D : Type} [DecidableEq ID] {f g : Forest ID T D}
    {cmp : T → T → Bool} (hrefl : ∀ t, cmp t t = true)
    (hperm : f.nodes.entries.Perm g.nodes.entries) :
    f.delta g cmp = ⟨[], [], []⟩ := by
  have hfg : ∀ e ∈ f.nodes.entries, g.tryGet e.1 = some e.2 := by
    intro e he
    exact SMap.get_eq_some_of_mem g.nodes (hperm.mem_iff.mp he)
  have hgf : ∀ e ∈ g.nodes.entries, f.tryGet e.1 = some e.2 := by
    intro e he
    exact SMap.get_eq_some_of_mem f.nodes (hperm.mem_iff.mpr he)
  rw [Forest.delta]
  have h1 : ∀ e ∈ f.nodes.entries, ¬((match g.tryGet e.1 with
      | some w => ! cmp w e.2
      | none => false) = true) := by
    intro e he
    simp only [hfg e he]
    rw [hrefl e.2]
    simp
  have h2 : ∀ e ∈ f.nodes.entries, ¬((g.tryGet e.1).isNone = true) := by
    intro e he
    rw [hfg e he]
    simp
  have h3 : ∀ e ∈ g.nodes.entries, ¬((f.tryGet e.1).isNone = true) := by
    intro e he
    rw [hgf e he]
    simp
  rw [List.filter_eq_nil_iff.mpr h1, List.filter_eq_nil_iff.mpr h2,
    List.filter_eq_nil_iff.mpr h3]
  rfl

theorem equals_of_perm {ID T D : Type} [DecidableEq ID] [DecidableEq T]
    {f g : Forest ID T D} {cmp : T → T → Bool} (hrefl : ∀ t, cmp t t = true)
    (hperm : f.nodes.entries.Perm g.nodes.entries) :
    f.equals g cmp = true := by
  rw [Forest.equals]
  have hsize : g.size = f.size := by
    show g.nodes.entries.length = f.nodes.entries.length
    exact (hperm.length_eq).symm
  rw [if_neg (by rw [hsize]; exact fun hne => hne rfl)]
  by_cases hent : g.nodes.entries = f.nodes.entries
  · rw [if_pos hent]
  · rw [if_neg hent]
    rw [List.all_eq_true]
    intro e he
    have hv : f.tryGet e.1 = some e.2 :=
      SMap.get_eq_some_of_mem f.nodes (hperm.mem_iff.mpr he)
    rw [hv]
    exact hrefl e.2

theorem equals_of_nodes_eq {ID T D : Type} [DecidableEq ID] [DecidableEq T]
    {f g : Forest ID T D} (cmp : T → T → Bool) (h : f.nodes = g.nodes) :
    f.equals g cmp = true := by
  rw [Forest.equals]
  have hsize : g.size = f.size := by
    show g.nodes.entries.length = f.nodes.entries.length
    rw [h]
  rw [if_neg (by rw [hsize]; exact fun hne => hne rfl), if_pos (by rw [h])]

theorem mergeWith_error_from_merger {ID T D : Type} [DecidableEq ID] :
    ∀ (l : List (ID × T)) (f : Forest ID T D) (m : T → T → ID → Except String T)
      (e : String), f.mergeWith l m = .error e →
      ∃ old new id, m old new id = .error e := by
  intro l
  induction l with
  | nil =>
    intro f m e h
    rw [mergeWith_nil_eq] at h
    cases h
  | cons e0 rest ih =>
    intro f m e h
    cases hget : f.nodes.get e0.1 with
    | some old =>
      rw [mergeWith_cons_some rest m hget] at h
      cases hm : m old e0.2 e0.1 with
      | error er =>
        rw [hm] at h
        have h2 : (Except.error er : Except String (Forest ID T D)) = Except.error e := h
        injection h2 with h3
        subst h3
        exact ⟨old, e0.2, e0.1, hm⟩
      | ok v =>
        rw [hm] at h
        have hrep : f.replace e0.1 v = .ok ⟨f.nodes.set e0.1 v,
            setParents e0.1 (f.getChildren v)
              (eraseParents (f.getChildren old) f.parents), f.getChildren⟩ := by
          rw [Forest.replace, hget]
        have h2 : (f.replace e0.1 v).bind (fun g => g.mergeWith rest m)
            = Except.error e := h
        rw [hrep] at h2
        exact ih _ m e h2
    | none =>
      rw [mergeWith_cons_none rest m hget] at h
      have hadd : f.add e0.1 e0.2 = .ok ⟨f.nodes.set e0.1 e0.2,
          setParents e0.1 (f.getChildren e0.2) f.parents, f.getChildren⟩ := by
        rw [Forest.add, if_neg (by rw [hget]; exact Bool.false_ne_true)]
      rw [hadd] at h
      exact ih _ m e h

theorem addAll_error_msg {ID T D : Type} [DecidableEq ID] {f : Forest ID T D}
    {l : List (ID × T)} {e : String} (h : f.addAll l = .error e) :
    e = "can not add node with already existing id" := by
  rw [Forest.addAll] at h
  obtain ⟨old, new, id, hm⟩ := mergeWith_error_from_merger l f _ e h
  injection hm with hm
  exact hm.symm

theorem deleteAll_error_msgs {ID T D : Type} [DecidableEq ID] {f : Forest ID T D}
    {ids : List ID} {dc : Bool} {e : String} (h : f.deleteAll ids dc = .error e) :
    e = "node must be un-parented to be deleted" ∨ e = "node to delete must exist" := by
  rw [Forest.deleteAll] at h
  cases hfold : ids.foldlM (delStep f.getChildren dc) (f.nodes, f.parents) with
  | error e0 =>
    rw [hfold] at h
    injection h with h2
    subst h2
    exact foldlM_delete_errors dc ids (f.nodes, f.parents) _ hfold
  | ok st =>
    rw [hfold] at h
    cases h

/-- C1 (amended): for every forest reachable from the empty forest
through `add`/`replace`/`delete`/`deleteAll` steps whose results are
well-behaved — no ID yielded more than once among the children of all
nodes present, neither by two different nodes nor twice by one node —
`assertConsistent` succeeds; and an `addAll`/`mergeWith` call all of
whose intermediate forests are well-behaved stays inside that reachable
set (`delete` is `deleteAll` of one id by definition, `addAll` is
`mergeWith` with an always-failing merger by definition). -/
theorem c1_reachable_consistent {ID T D : Type} [DecidableEq ID]
    (f g : Forest ID T D) (l : List (ID × T)) (m : T → T → ID → Except String T) :
    (ReachWB f → f.assertConsistent = .ok ()) ∧
    (ReachWB f → MergeWB f l m → f.mergeWith l m = .ok g → ReachWB g) := by
  constructor
  · intro hre
    obtain ⟨hInv, hWB⟩ := reachWB_inv hre
    exact assertConsistent_ok hInv hWB
  · intro hre hmwb h
    exact mergeWith_reach l f g m hre hmwb h

/-- Witness for C1: the empty forest is reachable and passes
`assertConsistent`. -/
theorem c1_witness : (emptyForest gcId : CForest).assertConsistent = .ok () :=
  (c1_reachable_consistent (emptyForest gcId) (emptyForest gcId) []
    (fun _ _ _ => .error "conflict")).1 (ReachWB.empty gcId)

/-- Counterexample for C1 as stated: one `add` from the empty forest of
a payload yielding child `1` twice satisfies the stated hypothesis (no
ID is yielded by two DIFFERENT nodes) yet `assertConsistent` fails. -/
theorem c1_counterexample :
    cF0.add 0 [(1, 0), (1, 1)] = .ok cexDup ∧ cexDup.NoCross ∧
      cexDup.assertConsistent
        = .error "the item tree tree must not contain cycles or multi-parented nodes" := by
  refine ⟨rfl, ?_, rfl⟩
  unfold Forest.NoCross
  exact List.pairwise_singleton _ _

/-- C2 (amended): adding a fresh id `i` succeeds and yields a forest
with the node stored, size one larger, the original unchanged, and for
each child the parent record of the last pair yielded for it — equal to
the unique yielded pair whenever the child list has no duplicate IDs;
records of non-children are untouched. Adding a present id fails with
the duplicate-ID message. -/
theorem c2_add_spec {ID T D : Type} [DecidableEq ID] (f : Forest ID T D) (i : ID) (n : T) :
    ((f.nodes.get i).isSome →
      f.add i n = .error "can not add node with already existing id") ∧
    (f.nodes.get i = none → ∃ g, f.add i n = .ok g ∧
      g.tryGet i = some n ∧ g.size = f.size + 1 ∧ f.tryGet i = none ∧
      (∀ c, g.tryGetParent c =
        match lastAssigned (f.getChildren n) c with
        | some d => some (i, d)
        | none => f.tryGetParent c) ∧
      (((f.getChildren n).map Prod.fst).Nodup →
        ∀ c d, (c, d) ∈ f.getChildren n → g.tryGetParent c = some (i, d))) := by
  constructor
  · intro hp
    rw [Forest.add, if_pos hp]
  · intro hp
    refine ⟨⟨f.nodes.set i n, setParents i (f.getChildren n) f.parents, f.getChildren⟩,
      ?_, ?_, ?_, hp, ?_, ?_⟩
    · rw [Forest.add, if_neg (by rw [hp]; exact Bool.false_ne_true)]
    · show (f.nodes.set i n).get i = some n
      rw [SMap.get_set, if_pos rfl]
    · show (f.nodes.set i n).size = f.nodes.size + 1
      rw [SMap.size_set, if_neg (by rw [hp]; exact Bool.false_ne_true)]
    · intro c
      exact setParents_get i (f.getChildren n) f.parents c
    · intro hnd c d hm
      show (setParents i (f.getChildren n) f.parents).get c = some (i, d)
      rw [setParents_get]
      simp only [lastAssigned_eq_some_of_nodup hnd hm]

/-- Witness for C2: a fresh add on the empty forest. -/
theorem c2_witness : ∃ g : CForest, cF0.add 5 [(7, 3)] = .ok g ∧
    g.tryGet 5 = some [(7, 3)] ∧ g.size = cF0.size + 1 := by
  obtain ⟨g, h1, h2, h3, -⟩ := (c2_add_spec cF0 5 [(7, 3)]).2 rfl
  exact ⟨g, h1, h2, h3⟩

/-- Counterexample for C2 as stated: a payload yielding `(1, 0)` and
then `(1, 1)` stores the record of the LAST yield, so the stated record
for the yielded pair `(1, 0)` does not hold. -/
theorem c2_counterexample :
    cF0.add 0 [(1, 0), (1, 1)] = .ok cexDup ∧
      ((1 : Nat), (0 : Nat)) ∈ gcId [(1, 0), (1, 1)] ∧
      cexDup.tryGetParent 1 = some (0, 1) ∧ cexDup.tryGetParent 1 ≠ some (0, 0) :=
  ⟨rfl, by decide, rfl, by decide⟩

/-- C3 (amended): `replace(id, node)` fails with the does-not-exist
message exactly when `id` is absent; when present with payload `old`
it succeeds, stores `node`, leaves children of `old` not re-claimed by
`node` without a parent record, and gives each child of `node` the
record of the last pair yielded for it — the unique yielded pair
whenever `node`'s child list has no duplicate IDs. -/
theorem c3_replace_spec {ID T D : Type} [DecidableEq ID] (f : Forest ID T D) (id : ID)
    (n : T) :
    (f.replace id n = .error "can not replace node that does not exist" ↔
      f.nodes.get id = none) ∧
    (∀ old, f.nodes.get id = some old → ∃ g, f.replace id n = .ok g ∧
      g.tryGet id = some n ∧
      (∀ c, g.tryGetParent c =
        match lastAssigned (f.getChildren n) c with
        | some d => some (id, d)
        | none =>
          if c ∈ (f.getChildren old).map Prod.fst then none else f.tryGetParent c) ∧
      (∀ c, c ∈ (f.getChildren old).map Prod.fst → c ∉ (f.getChildren n).map Prod.fst →
        g.tryGetParent c = none) ∧
      (((f.getChildren n).map Prod.fst).Nodup →
        ∀ c d, (c, d) ∈ f.getChildren n → g.tryGetParent c = some (id, d))) := by
  constructor
  · exact replace_error_iff f id n
  · intro old hold
    refine ⟨⟨f.nodes.set id n,
      setParents id (f.getChildren n) (eraseParents (f.getChildren old) f.parents),
      f.getChildren⟩, ?_, ?_, ?_, ?_, ?_⟩
    · rw [Forest.replace, hold]
    · show (f.nodes.set id n).get id = some n
      rw [SMap.get_set, if_pos rfl]
    · intro c
      show (setParents id (f.getChildren n)
        (eraseParents (f.getChildren old) f.parents)).get c = _
      rw [setParents_get]
      cases hla : lastAssigned (f.getChildren n) c with
      | some d => rfl
      | none =>
        simp only []
        rw [eraseParents_get]
        rfl
    · intro c hcold hcnew
      show (setParents id (f.getChildren n)
        (eraseParents (f.getChildren old) f.parents)).get c = none
      rw [setParents_get]
      have hla : lastAssigned (f.getChildren n) c = none :=
        (lastAssigned_eq_none_iff _ _).mpr hcnew
      simp only [hla, eraseParents_get, if_pos hcold]
    · intro hnd c d hm
      show (setParents id (f.getChildren n)
        (eraseParents (f.getChildren old) f.parents)).get c = some (id, d)
      rw [setParents_get]
      simp only [lastAssigned_eq_some_of_nodup hnd hm]

/-- Witness for C3: replacing the payload of the one node of `cexLeaf`. -/
theorem c3_witness : ∃ g : CForest, cexLeaf.replace 0 [(1, 4)] = .ok g ∧
    g.tryGet 0 = some [(1, 4)] := by
  obtain ⟨g, h1, h2, -⟩ := (c3_replace_spec cexLeaf 0 [(1, 4)]).2 [] rfl
  exact ⟨g, h1, h2⟩

/-- Counterexample for C3 as stated: replacing with a payload that
yields child `1` twice stores the record of the last yield, not of
every yielded pair. -/
theorem c3_counterexample :
    cF0.add 0 [] = .ok cexLeaf ∧ cexLeaf.replace 0 [(1, 0), (1, 1)] = .ok cexRep2 ∧
      ((1 : Nat), (0 : Nat)) ∈ gcId [(1, 0), (1, 1)] ∧
      cexRep2.tryGetParent 1 = some (0, 1) ∧ cexRep2.tryGetParent 1 ≠ some (0, 0) :=
  ⟨rfl, rfl, by decide, rfl, by decide⟩

/-- C4: `delete`/`deleteAll` fail with the un-parented message whenever
the node to be deleted has a parent record (also inside the recursion,
hence at every cascade level); an unparented present node deleted with
`deleteChildren = false` loses its node and its children lose their
parent records, and with `deleteChildren = true` the children are
processed by the recursive child loop `deleteChildrenF`, which deletes
each child under the same un-parented precondition, cascading. -/
theorem c4_delete_spec {ID T D : Type} [DecidableEq ID] (f : Forest ID T D) (id : ID)
    (dc : Bool) (rest : List ID) (fuel : Nat) (N : SMap ID T) (P : SMap ID (ID × D)) :
    ((f.parents.get id).isSome →
      f.delete id dc = .error "node must be un-parented to be deleted" ∧
      f.deleteAll (id :: rest) dc = .error "node must be un-parented to be deleted") ∧
    ((P.get id).isSome →
      deleteRecursiveF f.getChildren (fuel + 1) N P id dc
        = some (.error "node must be un-parented to be deleted")) ∧
    (∀ n, f.parents.get id = none → f.nodes.get id = some n →
      f.delete id false = .ok ⟨f.nodes.erase id,
        eraseParents (f.getChildren n) f.parents, f.getChildren⟩ ∧
      f.delete id true
        = match deleteChildrenF f.getChildren f.nodes.size (f.getChildren n)
            (f.nodes.erase id) f.parents true with
          | none => .error "recursion fuel exhausted"
          | some (.error e) => .error e
          | some (.ok st) => .ok ⟨st.1, st.2, f.getChildren⟩) := by
  refine ⟨?_, ?_, ?_⟩
  · intro hp
    exact ⟨delete_unparented_fail dc hp, deleteAll_head_unparented_fail rest dc hp⟩
  · intro hp
    rw [deleteRecursiveF_succ, if_pos hp]
  · intro n hp hn
    exact ⟨delete_false_spec hp hn, delete_true_spec hp hn⟩

/-- Witness for C4: deleting the unparented childless node of `cexLeaf`. -/
theorem c4_witness : cexLeaf.delete 0 false = .ok ⟨cexLeaf.nodes.erase 0,
    eraseParents (cexLeaf.getChildren []) cexLeaf.parents, cexLeaf.getChildren⟩ :=
  ((c4_delete_spec cexLeaf 0 false [] 0 SMap.empty SMap.empty).2.2 [] rfl rfl).1

/-- C5: `mergeWith` is the left-to-right fold that, per entry, either
calls the merger once on the present value and replaces with its
result, or adds; later entries see the accumulated forest; `addAll` is
`mergeWith` with the always-failing duplicate-ID merger. -/
theorem c5_mergeWith_spec {ID T D : Type} [DecidableEq ID] (f : Forest ID T D)
    (e : ID × T) (rest l : List (ID × T)) (m : T → T → ID → Except String T) (old : T) :
    f.mergeWith [] m = .ok f ∧
    (f.nodes.get e.1 = some old →
      f.mergeWith (e :: rest) m = (m old e.2 e.1).bind (fun v =>
        (f.replace e.1 v).bind (fun g => g.mergeWith rest m))) ∧
    (f.nodes.get e.1 = none →
      f.mergeWith (e :: rest) m = (f.add e.1 e.2).bind (fun g => g.mergeWith rest m)) ∧
    f.addAll l
      = f.mergeWith l (fun _ _ _ => .error "can not add node with already existing id") :=
  ⟨mergeWith_nil_eq f m, fun h => mergeWith_cons_some rest m h,
    fun h => mergeWith_cons_none rest m h, rfl⟩

/-- Witness for C5: a one-entry `mergeWith` with a conflict on the one
node of `cexLeaf` unfolds to merger-then-replace. -/
theorem c5_witness :
    cexLeaf.mergeWith [(0, [(9, 9)])] mergerApp
      = (mergerApp [] [(9, 9)] 0).bind (fun v =>
          (cexLeaf.replace 0 v).bind (fun g => g.mergeWith [] mergerApp)) :=
  (c5_mergeWith_spec cexLeaf (0, [(9, 9)]) [] [] mergerApp []).2.1 rfl

/-- C6 (amended): `delta` returns exactly the comparator-unequal
both-present IDs as changed, the only-in-this IDs as removed and the
only-in-other IDs as added; the three lists are pairwise disjoint and
duplicate-free; and `delta(self)` is empty whenever the comparator is
reflexive, as the default value-identity comparator is. -/
theorem c6_delta_spec {ID T D : Type} [DecidableEq ID] (f g : Forest ID T D)
    (cmp : T → T → Bool) :
    (∀ id, id ∈ (f.delta g cmp).changed ↔
      ∃ v w, f.tryGet id = some v ∧ g.tryGet id = some w ∧ cmp w v = false) ∧
    (∀ id, id ∈ (f.delta g cmp).removed ↔
      (∃ v, f.tryGet id = some v) ∧ g.tryGet id = none) ∧
    (∀ id, id ∈ (f.delta g cmp).added ↔
      (∃ w, g.tryGet id = some w) ∧ f.tryGet id = none) ∧
    (∀ id, ¬(id ∈ (f.delta g cmp).changed ∧ id ∈ (f.delta g cmp).removed) ∧
      ¬(id ∈ (f.delta g cmp).changed ∧ id ∈ (f.delta g cmp).added) ∧
      ¬(id ∈ (f.delta g cmp).removed ∧ id ∈ (f.delta g cmp).added)) ∧
    ((f.delta g cmp).changed.Nodup ∧ (f.delta g cmp).removed.Nodup ∧
      (f.delta g cmp).added.Nodup) ∧
    ((∀ t, cmp t t = true) → f.delta f cmp = ⟨[], [], []⟩) := by
  refine ⟨fun id => delta_changed_mem, fun id => delta_removed_mem,
    fun id => delta_added_mem, ?_, delta_nodup f g cmp,
    fun hrefl => delta_of_perm hrefl (List.Perm.refl _)⟩
  intro id
  refine ⟨?_, ?_, ?_⟩
  · rintro ⟨h1, h2⟩
    obtain ⟨v, w, -, hw, -⟩ := delta_changed_mem.mp h1
    obtain ⟨-, hnone⟩ := delta_removed_mem.mp h2
    rw [hw] at hnone
    cases hnone
  · rintro ⟨h1, h2⟩
    obtain ⟨v, w, hv, -, -⟩ := delta_changed_mem.mp h1
    obtain ⟨-, hnone⟩ := delta_added_mem.mp h2
    rw [hv] at hnone
    cases hnone
  · rintro ⟨h1, h2⟩
    obtain ⟨⟨v, hv⟩, -⟩ := delta_removed_mem.mp h1
    obtain ⟨-, hnone⟩ := delta_added_mem.mp h2
    rw [hv] at hnone
    cases hnone

/-- Witness for C6: self-delta with the reflexive structural
comparator is empty. -/
theorem c6_witness : cexLeaf.delta cexLeaf cmpEq = ⟨[], [], []⟩ :=
  (c6_delta_spec cexLeaf cexLeaf cmpEq).2.2.2.2.2 (fun t => by simp [cmpEq])

/-- Counterexample for C6 as stated: with the never-true comparator,
`delta(self)` is NOT empty — every node is listed as changed. -/
theorem c6_counterexample :
    cexLeaf.delta cexLeaf cmpFalse = ⟨[0], [], []⟩ ∧
      cexLeaf.delta cexLeaf cmpFalse ≠ ⟨[], [], []⟩ :=
  ⟨rfl, by decide⟩

/-- C7: every failing mutation fails with exactly its documented
contract-violation message — `add` only on a present id, `replace` only
on an absent id, `delete`/`deleteAll` only with the un-parented or
must-exist messages (also partway through a batch), `mergeWith` only
with an error raised by the merger itself, `addAll` only with the
duplicate-ID message — and, the operations being pure functions into
`Except`, a failing call returns no new forest and the original forest
value (its size, `tryGet`, `tryGetParent` and iteration) is unchanged
by construction. -/
theorem c7_failure_spec {ID T D : Type} [DecidableEq ID] (f : Forest ID T D) (id : ID)
    (n : T) (ids : List ID) (dc : Bool) (l : List (ID × T))
    (m : T → T → ID → Except String T) :
    (∀ e, f.add id n = .error e →
      e = "can not add node with already existing id" ∧ (f.nodes.get id).isSome) ∧
    (∀ e, f.replace id n = .error e →
      e = "can not replace node that does not exist" ∧ f.nodes.get id = none) ∧
    (∀ e, f.deleteAll ids dc = .error e →
      e = "node must be un-parented to be deleted" ∨ e = "node to delete must exist") ∧
    (∀ e, f.mergeWith l m = .error e → ∃ old new id0, m old new id0 = .error e) ∧
    (∀ e, f.addAll l = .error e → e = "can not add node with already existing id") := by
  refine ⟨?_, ?_, fun e h => deleteAll_error_msgs h,
    fun e h => mergeWith_error_from_merger l f m e h, fun e h => addAll_error_msg h⟩
  · intro e h
    rw [Forest.add] at h
    by_cases hp : (f.nodes.get id).isSome
    · rw [if_pos hp] at h
      injection h with h2
      exact ⟨h2.symm, hp⟩
    · rw [if_neg hp] at h
      cases h
  · intro e h
    rw [Forest.replace] at h
    cases ho : f.nodes.get id with
    | none =>
      rw [ho] at h
      injection h with h2
      exact ⟨h2.symm, rfl⟩
    | some old =>
      rw [ho] at h
      cases h

/-- Witness for C7: the failing duplicate add on `cexLeaf` implies its
id was present. -/
theorem c7_witness : (cexLeaf.nodes.get 0).isSome = true :=
  ((c7_failure_spec cexLeaf 0 [] [] false [] mergerApp).1
    "can not add node with already existing id" rfl).2

/-- C8 (amended): `assertConsistent` fails on every forest whose
parents map holds an entry whose key is not yielded as a child by any
node present in the forest (the count check catches it); an entry whose
key is claimed by a present node but absent from the nodes map passes
undetected. -/
theorem c8_assertConsistent_stale {ID T D : Type} [DecidableEq ID] (f : Forest ID T D)
    (s : ID) (r : ID × D) :
    f.parents.get s = some r → s ∉ claimedChildren f →
      ∃ e, f.assertConsistent = .error e :=
  fun hs hnc => assertConsistent_stale hs hnc

/-- Witness for C8: a forest assembled with an empty nodes map and one
stale parent record fails `assertConsistent`. -/
theorem c8_witness : ∃ e, cexUnclaimed.assertConsistent = .error e :=
  c8_assertConsistent_stale cexUnclaimed 1 (0, 0) rfl (by decide)

/-- Counterexample for C8 as stated: `cexStale` (one node `0` claiming
child `1`, no node `1`) violates invariant 4 — `parents` has an entry
for `1`, which is absent from `nodes` — yet `assertConsistent`
succeeds. -/
theorem c8_counterexample :
    cF0.add 0 [(1, 0)] = .ok cexStale ∧ cexStale.parents.get 1 = some (0, 0) ∧
      cexStale.nodes.get 1 = none ∧ cexStale.assertConsistent = .ok () :=
  ⟨rfl, rfl, rfl, rfl⟩

/-- C9: deleting an id that is unparented but has no node fails with
the must-exist message, at the public API and at every level of the
recursion; concretely, deleting node `0` of `cexStale` (which claims
the nonexistent child `1`) with `deleteChildren = true` fails partway
through the cascade. -/
theorem c9_delete_missing {ID T D : Type} [DecidableEq ID] (f : Forest ID T D) (id : ID)
    (dc : Bool) (fuel : Nat) (N : SMap ID T) (P : SMap ID (ID × D)) :
    (f.parents.get id = none → f.nodes.get id = none →
      f.delete id dc = .error "node to delete must exist") ∧
    (P.get id = none → N.get id = none →
      deleteRecursiveF f.getChildren (fuel + 1) N P id dc
        = some (.error "node to delete must exist")) ∧
    cexStale.delete 0 true = .error "node to delete must exist" := by
  refine ⟨fun hp hn => delete_missing_fail dc hp hn, ?_, rfl⟩
  intro hp hn
  rw [deleteRecursiveF_succ, if_neg (by rw [hp]; exact Bool.false_ne_true)]
  simp only [hn]

/-- Witness for C9: deleting an absent id from the empty forest. -/
theorem c9_witness : cF0.delete 5 false = .error "node to delete must exist" :=
  (c9_delete_missing cF0 5 false 0 SMap.empty SMap.empty).1 rfl rfl

/-- C10: `equals` and `delta` read only the nodes map — fully
insensitive to the parents maps and projections — `equals` answers true
whenever the two nodes maps are equal (the value-level analogue of the
same-instance short-circuit), and forests whose nodes entries agree up
to permutation are `equals`-equal with an empty `delta` under any
reflexive comparator such as the default value identity. -/
theorem c10_nodes_only {ID T D : Type} [DecidableEq ID] [DecidableEq T]
    (f g : Forest ID T D) (cmp : T → T → Bool) (P1 P2 : SMap ID (ID × D))
    (gc1 gc2 : T → List (ID × D)) :
    (f.nodes = g.nodes → f.equals g cmp = true) ∧
    ((∀ t, cmp t t = true) → f.nodes.entries.Perm g.nodes.entries →
      f.equals g cmp = true ∧ f.delta g cmp = ⟨[], [], []⟩) ∧
    (Forest.equals ⟨f.nodes, P1, gc1⟩ ⟨g.nodes, P2, gc2⟩ cmp = f.equals g cmp ∧
      Forest.delta ⟨f.nodes, P1, gc1⟩ ⟨g.nodes, P2, gc2⟩ cmp = f.delta g cmp) := by
  refine ⟨fun h => equals_of_nodes_eq cmp h, ?_, rfl, rfl⟩
  intro hrefl hperm
  exact ⟨equals_of_perm hrefl hperm, delta_of_perm hrefl hperm⟩

/-- Witness for C10: `cexStale` and `cexAlt` share the nodes map but
have different parents maps; they are `equals`-equal with empty
`delta`. -/
theorem c10_witness :
    cexStale.equals cexAlt cmpEq = true ∧ cexStale.delta cexAlt cmpEq = ⟨[], [], []⟩ :=
  (c10_nodes_only cexStale cexAlt cmpEq SMap.empty SMap.empty gcId gcId).2.1
    (fun t => by simp [cmpEq]) (List.Perm.refl _)
